import Mathlib

/-!
# Movie database: record codec and catalog store

A shallow embedding of `src/movie.cpp` (classes `Movie` and `MovieDatabase`) and
theorems about it.

Modelling conventions

* `std::string` is a list of characters (`Str`); one `Char` stands for one `char`.
* `std::stringstream` is `IStream`: the characters not yet extracted plus the two state
  bits the code can observe (`eofbit`, `failbit`).  Each member function used by
  `Movie::fromString` is modelled after its description in the C++ standard
  (`ignore`, `getline`, `peek`, `operator>>(int&)`).
* `std::map` is an association list kept in ascending key order (`StdMap`).
* A call either returns normally or lets `std::out_of_range` (thrown by
  `std::string::substr`) propagate; nothing in `main` catches it.  `Result` records which.
* The local `int year;` of `Movie::fromString` is not initialised; the value it holds
  when `operator>>` does not store anything is the parameter `year0`.  Each call has its own
  such value: the lines of a file are `FileLine`s, a text with the `year0` of its call.
* `std::sort` is taken by its contract (`StdSortContract` for vectors of movies,
  `SortContractOn` for any element type): the functions that call it take the sorting
  routine as a parameter.  `GnuSort.sort` is the routine of the GNU C++ library
  (`bits/stl_algo.h`: introsort loop, heap sort below the depth limit, final insertion
  sort), for the statements about what the contract leaves open.
* The catalogs the program can be in are described by `Reachable`.
-/

namespace MovieDB

/-! ## Strings -/

/-- The type `std::string`. -/
abbrev Str := List Char

/-- The relation `a < b` on `std::string`: lexicographic comparison of the characters. -/
def strLess : Str → Str → Bool
  | [], [] => false
  | [], _ :: _ => true
  | _ :: _, [] => false
  | a :: as, b :: bs =>
    if a < b then true else if b < a then false else strLess as bs

/-- Decimal digits of a natural number, most significant first. -/
def natToString (n : Nat) : Str := Nat.toDigits 10 n

/-- The text `operator<<(int)` and `std::to_string(int)` produce. -/
def intToString (i : Int) : Str :=
  if i < 0 then '-' :: natToString i.natAbs else natToString i.toNat

/-- The double quote character. -/
def DQUOTE : Char := Char.ofNat 34

/-- The comma character. -/
def COMMA : Char := Char.ofNat 44

/-- The closing square bracket. -/
def RBRACKET : Char := Char.ofNat 93

/-- Outcome of a call: normal return, or an uncaught `std::out_of_range`.  `fuel` marks an
exhausted loop budget of the model; `Codec.fromString_fuel_free` shows it never occurs. -/
inductive Result (α : Type) where
  | ok (a : α)
  | out_of_range
  | fuel
  deriving DecidableEq, Repr

/-- The size of `size_t` arithmetic (64-bit). -/
def SIZE_MOD : Nat := 2 ^ 64

/-- The call `s.substr(pos, s.size() - k)`: the length argument is computed in `size_t`, so it
wraps around when `s.size() < k`; `pos > s.size()` throws `std::out_of_range`; otherwise
the result is the characters from `pos`, at most the requested count. -/
def substrSizeMinus (s : Str) (pos k : Nat) : Result Str :=
  let len := (s.length + SIZE_MOD - k) % SIZE_MOD
  if s.length < pos then Result.out_of_range
  else Result.ok ((s.drop pos).take len)

/-! ## The input stream -/

/-- The state of a `std::stringstream` being read. -/
structure IStream where
  buf : Str
  eofbit : Bool
  failbit : Bool
  deriving DecidableEq, Repr

namespace IStream

/-- The constructor `stringstream ss(str)`. -/
def ofString (str : Str) : IStream := { buf := str, eofbit := false, failbit := false }

/-- The member `good()`: no state bit is set. -/
def good (s : IStream) : Bool := !s.eofbit && !s.failbit

/-- The call `ss.ignore(n)` for `n > 0`: a stream that is not good only gets `failbit`; otherwise
`n` characters are discarded, or all of them with `eofbit` when fewer than `n` are left. -/
def ignore (s : IStream) (n : Nat) : IStream :=
  if !s.good then { s with failbit := true }
  else if s.buf.length < n then { buf := [], eofbit := true, failbit := false }
  else { s with buf := s.buf.drop n }

/-- Characters before the first `delim`, or all of them when there is none. -/
def upTo (delim : Char) : Str → Str
  | [] => []
  | c :: cs => if c = delim then [] else c :: upTo delim cs

/-- Characters after the first `delim`; `none` when there is no `delim`. -/
def after (delim : Char) : Str → Option Str
  | [] => none
  | c :: cs => if c = delim then some cs else after delim cs

/-- The call `getline(ss, str, delim)`, returning the stream and the new value of `str`.
A stream that is not good gets `failbit` and `str` is left alone.  Otherwise `str` is erased
and receives the characters up to the delimiter, which is extracted and dropped; running
into the end sets `eofbit`, and also `failbit` when nothing at all was extracted. -/
def getline (s : IStream) (str : Str) (delim : Char) : IStream × Str :=
  if !s.good then ({ s with failbit := true }, str)
  else match after delim s.buf with
    | some rest => ({ s with buf := rest }, upTo delim s.buf)
    | none => ({ buf := [], eofbit := true, failbit := s.buf.isEmpty }, s.buf)

/-- The call `ss.peek()`: the next character without extracting it, `none` for `EOF`. -/
def peek (s : IStream) : IStream × Option Char :=
  if !s.good then ({ s with failbit := true }, none)
  else match s.buf with
    | [] => ({ s with eofbit := true }, none)
    | c :: _ => (s, some c)

/-- The predicate `isspace` in the "C" locale. -/
def isSpace (c : Char) : Bool :=
  c = ' ' || c = '\t' || c = '\n' || c = '\x0b' || c = '\x0c' || c = '\r'

/-- A decimal digit. -/
def isDigit (c : Char) : Bool := '0' ≤ c && c ≤ '9'

/-- Value of a run of decimal digits. -/
def digitsValue (ds : Str) : Nat :=
  ds.foldl (fun acc c => 10 * acc + (c.toNat - '0'.toNat)) 0

/-- Largest `int`. -/
def INT_MAX : Int := 2147483647

/-- Smallest `int`. -/
def INT_MIN : Int := -2147483648

/-- An optionally signed decimal number at the start of the text: its value, `none` when no
digit follows the optional sign, and the text after the characters read. -/
def scanInt (t : Str) : Option Int × Str :=
  let neg := t.head? = some '-'
  let body := if t.head? = some '-' ∨ t.head? = some '+' then t.drop 1 else t
  let ds := body.takeWhile isDigit
  (if ds.isEmpty then none
   else some (if neg then -(digitsValue ds : Int) else (digitsValue ds : Int)),
   body.dropWhile isDigit)

/-- The call `ss >> n` for `int n`, returning the stream and the new value of `n`.
A stream that is not good gets `failbit` and `n` is left alone; so it is when only white space
is left.  Otherwise an optionally signed decimal number is read: when there is none, `n`
becomes `0` with `failbit`; a value outside `int` is clamped with `failbit`. -/
def extractInt (s : IStream) (n : Int) : IStream × Int :=
  if !s.good then ({ s with failbit := true }, n)
  else match s.buf.dropWhile isSpace with
    | [] => ({ buf := [], eofbit := true, failbit := true }, n)
    | c :: cs =>
      match scanInt (c :: cs) with
      | (none, rest) => ({ buf := rest, eofbit := rest.isEmpty, failbit := true }, 0)
      | (some v, rest) =>
        if INT_MAX < v then ({ buf := rest, eofbit := rest.isEmpty, failbit := true }, INT_MAX)
        else if v < INT_MIN then ({ buf := rest, eofbit := rest.isEmpty, failbit := true }, INT_MIN)
        else ({ buf := rest, eofbit := rest.isEmpty, failbit := false }, v)

/-- The conversion `while (stream)`: true unless `failbit` is set. -/
def toBool (s : IStream) : Bool := !s.failbit

end IStream

/-! ## Ordered maps -/

/-- The type `std::map<string, β>`: key and value pairs in ascending key order. -/
abbrev StdMap (β : Type) := List (Str × β)

namespace StdMap

/-- The member `find`: the value stored under `k`, if any. -/
def find {β : Type} : StdMap β → Str → Option β
  | [], _ => none
  | (k', v) :: rest, k => if k = k' then some v else find rest k

/-- Stores `v` under `k`, replacing the old value or inserting in key order. -/
def assign {β : Type} : StdMap β → Str → β → StdMap β
  | [], k, v => [(k, v)]
  | (k', v') :: rest, k, v =>
    if k = k' then (k, v) :: rest
    else if strLess k k' then (k, v) :: (k', v') :: rest
    else (k', v') :: assign rest k v

/-- The value `m[k]` refers to: the stored one, or a value-initialised one (`dflt`). -/
def index {β : Type} (m : StdMap β) (k : Str) (dflt : β) : β := (find m k).getD dflt

/-- The list of keys, in iteration order. -/
def keys {β : Type} (m : StdMap β) : List Str := m.map Prod.fst

end StdMap

/-! ## class Movie -/

/-- The class `Movie`. -/
structure Movie where
  title : Str
  year : Int
  director : Str
  genre : Str
  cast : List Str
  plotSummary : Str
  userRatings : StdMap (List Int)
  userReviews : StdMap Str
  deriving DecidableEq, Repr

namespace Movie

/-- The constructor `Movie(t, y, d, g, c, p)`: both maps start empty. -/
def mk6 (t : Str) (y : Int) (d g : Str) (c : List Str) (p : Str) : Movie :=
  { title := t, year := y, director := d, genre := g, cast := c, plotSummary := p,
    userRatings := [], userReviews := [] }

/-- A value-initialised movie, read where a position lies outside a vector. -/
instance : Inhabited Movie := ⟨mk6 [] 0 [] [] [] []⟩

/-- The loop of `toString` over the cast: each member quoted, `", "` between members. -/
def castToString : List Str → Str
  | [] => []
  | [a] => "\"".toList ++ a ++ "\"".toList
  | a :: b :: rest => "\"".toList ++ a ++ "\"".toList ++ ", ".toList ++ castToString (b :: rest)

/-- The method `Movie::toString`. -/
def toString (m : Movie) : Str :=
  "\x7b".toList
  ++ "\"title\": \"".toList ++ m.title ++ "\", ".toList
  ++ "\"year\": ".toList ++ intToString m.year ++ ", ".toList
  ++ "\"director\": \"".toList ++ m.director ++ "\", ".toList
  ++ "\"genre\": \"".toList ++ m.genre ++ "\", ".toList
  ++ "\"cast\": [".toList
  ++ castToString m.cast
  ++ "], ".toList
  ++ "\"plotSummary\": \"".toList ++ m.plotSummary ++ "\"".toList
  ++ "\x7d".toList

/-- The loop `while (getline(ss, actor, ','))` of `fromString`, with the variables it updates:
the stream, `actor` and `cast`.  Each round extracts at least one character, so `fuel` larger
than the number of characters left is never used up. -/
def castLoop : Nat → IStream → Str → List Str → Result (IStream × List Str)
  | 0, _, _, _ => Result.fuel
  | fuel + 1, ss, actor, cast =>
    let (ss1, actor1) := ss.getline actor COMMA
    if !ss1.toBool then Result.ok (ss1, cast)
    else match substrSizeMinus actor1 1 2 with
      | Result.ok actor2 =>
        let cast1 := cast ++ [actor2]
        let (ss2, c) := ss1.peek
        if c = some RBRACKET then Result.ok (ss2, cast1)
        else castLoop fuel (ss2.ignore 2) actor2 cast1
      | Result.out_of_range => Result.out_of_range
      | Result.fuel => Result.fuel

/-- The stream of `fromString` when it reaches `ss >> year`, and the title read so far. -/
def yearPosition (str : Str) : IStream × Str :=
  let ss := IStream.ofString str
  let ss := ss.ignore 9
  let (ss, title) := ss.getline [] DQUOTE
  (ss.ignore 10, title)

/-- The function `Movie::fromString`; `year0` is the indeterminate initial value of `year`. -/
def fromString (year0 : Int) (str : Str) : Result Movie :=
  let (ss, title) := yearPosition str
  let (ss, year) := ss.extractInt year0
  let ss := ss.ignore 12
  let (ss, director) := ss.getline [] DQUOTE
  let ss := ss.ignore 10
  let (ss, genre) := ss.getline [] DQUOTE
  let ss := ss.ignore 9
  match castLoop (ss.buf.length + 1) ss [] [] with
  | Result.ok (ss, cast) =>
    let ss := ss.ignore 16
    let (_, plotSummary) := ss.getline [] DQUOTE
    Result.ok (mk6 title year director genre cast plotSummary)
  | Result.out_of_range => Result.out_of_range
  | Result.fuel => Result.fuel

end Movie

/-- A line `getline` reads from a file, together with the value the uninitialised local
`int year` holds in the call of `Movie::fromString` made for that line.  Every call has its own
local, so every line has its own value. -/
structure FileLine where
  year0 : Int
  text : Str
  deriving DecidableEq, Repr

/-! ## class MovieDatabase -/

/-- The member `userLibraries`: user name to list of movies. -/
abbrev Catalog := StdMap (List Movie)

namespace MovieDatabase

/-- The vector `userLibraries[username]` refers to (empty when the key is absent). -/
def library (db : Catalog) (username : Str) : List Movie := db.index username []

/-- The method `addMovie`. -/
def addMovie (db : Catalog) (username : Str) (movie : Movie) : Catalog :=
  db.assign username (library db username ++ [movie])

/-- The loop of `editMovie`: the first movie with the title is overwritten, then `return`. -/
def editLoop (title : Str) (updatedMovie : Movie) : List Movie → List Movie
  | [] => []
  | movie :: rest =>
    if movie.title = title then updatedMovie :: rest
    else movie :: editLoop title updatedMovie rest

/-- The method `editMovie`. -/
def editMovie (db : Catalog) (username title : Str) (updatedMovie : Movie) : Catalog :=
  db.assign username (editLoop title updatedMovie (library db username))

/-- The idiom `v.erase(remove_if(v.begin(), v.end(), pred), v.end())`: the elements for which
`pred` is false are moved to the front in their order and the tail is cut off. -/
def eraseRemoveIf (pred : Movie → Bool) : List Movie → List Movie
  | [] => []
  | movie :: rest =>
    if pred movie then eraseRemoveIf pred rest else movie :: eraseRemoveIf pred rest

/-- The method `deleteMovie`. -/
def deleteMovie (db : Catalog) (username title : Str) : Catalog :=
  db.assign username
    (eraseRemoveIf (fun movie => decide (movie.title = title)) (library db username))

/-- The method `sortMovies`; `stdSort` is `std::sort` applied to a whole vector. -/
def sortMovies (stdSort : (Movie → Movie → Bool) → List Movie → List Movie)
    (db : Catalog) (username criteria : Str) : Catalog :=
  let movies := library db username
  if criteria = "title".toList then
    db.assign username (stdSort (fun a b => strLess a.title b.title) movies)
  else if criteria = "year".toList then
    db.assign username (stdSort (fun a b => decide (a.year < b.year)) movies)
  else if criteria = "director".toList then
    db.assign username (stdSort (fun a b => strLess a.director b.director) movies)
  else if criteria = "genre".toList then
    db.assign username (stdSort (fun a b => strLess a.genre b.genre) movies)
  else db.assign username movies

/-- The loop of `filterMovies`: the lines written to `cout`, one per matching movie. -/
def filterLoop (criteria value : Str) : List Movie → List Str
  | [] => []
  | movie :: rest =>
    if (criteria = "title".toList ∧ movie.title = value) ∨
       (criteria = "year".toList ∧ intToString movie.year = value) ∨
       (criteria = "director".toList ∧ movie.director = value) ∨
       (criteria = "genre".toList ∧ movie.genre = value)
    then movie.toString :: filterLoop criteria value rest
    else filterLoop criteria value rest

/-- The method `filterMovies`: the catalog afterwards and the lines written to `cout`. -/
def filterMovies (db : Catalog) (username criteria value : Str) : Catalog × List Str :=
  (db.assign username (library db username),
   filterLoop criteria value (library db username))

/-- The statement `movie.userRatings[username].push_back(rating)`. -/
def pushRating (movie : Movie) (username : Str) (rating : Int) : Movie :=
  { movie with
    userRatings :=
      movie.userRatings.assign username (movie.userRatings.index username [] ++ [rating]) }

/-- The loop of `rateMovie`: the movies afterwards and whether the loop returned early. -/
def rateLoop (username title : Str) (rating : Int) : List Movie → List Movie × Bool
  | [] => ([], false)
  | movie :: rest =>
    if movie.title = title then (pushRating movie username rating :: rest, true)
    else (movie :: (rateLoop username title rating rest).1,
          (rateLoop username title rating rest).2)

/-- The method `rateMovie`: the catalog afterwards and the lines written to `cout`. -/
def rateMovie (db : Catalog) (username title : Str) (rating : Int) : Catalog × List Str :=
  let r := rateLoop username title rating (library db username)
  (db.assign username r.1, if r.2 then [] else ["Movie not found!".toList])

/-- The method `importMovies` on the lines `getline` reads from the file, in order; every
call of `Movie::fromString` starts from the value its own line carries. -/
def importMovies : List FileLine → Str → Catalog → Result Catalog
  | [], _, db => Result.ok db
  | line :: rest, username, db =>
    if line.text.isEmpty then importMovies rest username db
    else match Movie.fromString line.year0 line.text with
      | Result.ok movie =>
        importMovies rest username (db.assign username (library db username ++ [movie]))
      | Result.out_of_range => Result.out_of_range
      | Result.fuel => Result.fuel

/-- The statement `movie.userReviews[username] = review`. -/
def setReview (movie : Movie) (username review : Str) : Movie :=
  { movie with userReviews := movie.userReviews.assign username review }

/-- The loop of `reviewMovie`: the movies afterwards and whether the loop returned early. -/
def reviewLoop (username title review : Str) : List Movie → List Movie × Bool
  | [] => ([], false)
  | movie :: rest =>
    if movie.title = title then (setReview movie username review :: rest, true)
    else (movie :: (reviewLoop username title review rest).1,
          (reviewLoop username title review rest).2)

/-- The method `reviewMovie`: the catalog afterwards and the lines written to `cout`. -/
def reviewMovie (db : Catalog) (username title review : Str) : Catalog × List Str :=
  let r := reviewLoop username title review (library db username)
  (db.assign username r.1, if r.2 then [] else ["Movie not found!".toList])

/-- The key of the library `loadFromFile` fills. -/
def defaultUser : Str := "default".toList

/-- The method `loadFromFile` on the lines `getline` reads from `movies.json`, in order;
every call of `Movie::fromString` starts from the value its own line carries. -/
def loadFromFile : List FileLine → Catalog → Result Catalog
  | [], db => Result.ok db
  | line :: rest, db =>
    if line.text.isEmpty then loadFromFile rest db
    else match Movie.fromString line.year0 line.text with
      | Result.ok movie =>
        loadFromFile rest (db.assign defaultUser (library db defaultUser ++ [movie]))
      | Result.out_of_range => Result.out_of_range
      | Result.fuel => Result.fuel

/-- The test `it != movie.userRatings.end() && !it->second.empty()` of `recommendMovies`. -/
def hasRated (username : Str) (movie : Movie) : Bool :=
  match movie.userRatings.find username with
  | some (_ :: _) => true
  | _ => false

/-- The inner loop of `recommendMovies` over one library: `movieFrequency[movie.title]++` for
every movie that passes the test.  The counter is an `int`, taken here without an upper bound
(it would take more than two thousand million movies to overflow). -/
def countLoop (username : Str) : List Movie → StdMap Int → StdMap Int
  | [], freq => freq
  | movie :: rest, freq =>
    if hasRated username movie then
      countLoop username rest (freq.assign movie.title (freq.index movie.title 0 + 1))
    else countLoop username rest freq

/-- The outer loop of `recommendMovies` over all libraries, in key order. -/
def movieFrequency (username : Str) : Catalog → StdMap Int → StdMap Int
  | [], freq => freq
  | user :: rest, freq => movieFrequency username rest (countLoop username user.2 freq)

/-- The method `recommendMovies`: the vector `recommendations` after `std::sort`, and the lines
written to `cout`; `stdSort` is `std::sort` applied to a whole vector of pairs. -/
def recommendMovies
    (stdSort : ((Str × Int) → (Str × Int) → Bool) → List (Str × Int) → List (Str × Int))
    (db : Catalog) (username : Str) : List (Str × Int) × List Str :=
  let recommendations :=
    stdSort (fun a b => decide (b.2 < a.2)) (movieFrequency username db [])
  (recommendations,
   ("Recommendations for ".toList ++ username ++ ":".toList)
     :: recommendations.map
          (fun rec => rec.1 ++ " (".toList ++ intToString rec.2 ++ " ratings)".toList))

end MovieDatabase

/-! ## The contract of `std::sort` -/

/-- The requirement `std::sort` puts on its comparison: a strict weak ordering, that is an
irreflexive and transitive relation whose incomparability relation is transitive. -/
def StrictWeak (comp : Movie → Movie → Bool) : Prop :=
  (∀ a, comp a a = false) ∧
  (∀ a b c, comp a b = true → comp b c = true → comp a c = true) ∧
  (∀ a b c, comp a b = false → comp b a = false → comp b c = false → comp c b = false →
    comp a c = false ∧ comp c a = false)

/-- What `std::sort(v.begin(), v.end(), comp)` promises for a strict weak ordering: the vector
afterwards is a rearrangement of the vector before, and no element is `comp`-less than an
element in front of it.  Nothing is promised on the order of equivalent elements. -/
def StdSortContract (stdSort : (Movie → Movie → Bool) → List Movie → List Movie) : Prop :=
  ∀ comp xs, StrictWeak comp →
    (stdSort comp xs).Perm xs ∧ (stdSort comp xs).Pairwise (fun a b => comp b a = false)

/-- Puts `x` in front of the first element `y` with `before x y`. -/
def insertBy (before : Movie → Movie → Bool) (x : Movie) : List Movie → List Movie
  | [] => [x]
  | y :: ys => if before x y then x :: y :: ys else y :: insertBy before x ys

/-- Insertion sort, inserting the elements from the last to the first. -/
def insertionSortBy (before : Movie → Movie → Bool) : List Movie → List Movie
  | [] => []
  | x :: xs => insertBy before x (insertionSortBy before xs)

/-- A sorting routine that keeps equivalent elements in their order. -/
def stableSort (comp : Movie → Movie → Bool) (xs : List Movie) : List Movie :=
  insertionSortBy (fun x y => !comp y x) xs

/-- A strict weak ordering on any type of elements. -/
def StrictWeakOn {α : Type} (comp : α → α → Bool) : Prop :=
  (∀ a, comp a a = false) ∧
  (∀ a b c, comp a b = true → comp b c = true → comp a c = true) ∧
  (∀ a b c, comp a b = false → comp b a = false → comp b c = false → comp c b = false →
    comp a c = false ∧ comp c a = false)

/-- The contract of `std::sort` for vectors of any element type. -/
def SortContractOn {α : Type} (stdSort : (α → α → Bool) → List α → List α) : Prop :=
  ∀ comp xs, StrictWeakOn comp →
    (stdSort comp xs).Perm xs ∧ (stdSort comp xs).Pairwise (fun a b => comp b a = false)

/-- Merge sort with `a` in front of `b` unless `b` is smaller, for any element type. -/
def mergeSortBy {α : Type} (comp : α → α → Bool) (xs : List α) : List α :=
  List.mergeSort xs (fun a b => !comp b a)

/-- The catalogs the program can be in: the empty one, and what `loadFromFile`,
`importMovies`, `addMovie` and `editMovie` with movies whose maps are empty, `deleteMovie`,
`sortMovies`, `rateMovie` and `reviewMovie` make of such a catalog. -/
inductive Reachable (stdSort : (Movie → Movie → Bool) → List Movie → List Movie) :
    Catalog → Prop where
  | empty : Reachable stdSort []
  | loaded (lines : List FileLine) (db db2 : Catalog) :
      Reachable stdSort db → MovieDatabase.loadFromFile lines db = Result.ok db2 →
      Reachable stdSort db2
  | imported (lines : List FileLine) (u : Str) (db db2 : Catalog) :
      Reachable stdSort db → MovieDatabase.importMovies lines u db = Result.ok db2 →
      Reachable stdSort db2
  | added (db : Catalog) (u : Str) (m : Movie) :
      Reachable stdSort db → m.userRatings = [] → m.userReviews = [] →
      Reachable stdSort (MovieDatabase.addMovie db u m)
  | edited (db : Catalog) (u title : Str) (m : Movie) :
      Reachable stdSort db → m.userRatings = [] → m.userReviews = [] →
      Reachable stdSort (MovieDatabase.editMovie db u title m)
  | deleted (db : Catalog) (u title : Str) :
      Reachable stdSort db → Reachable stdSort (MovieDatabase.deleteMovie db u title)
  | sorted (db : Catalog) (u criteria : Str) :
      Reachable stdSort db → Reachable stdSort (MovieDatabase.sortMovies stdSort db u criteria)
  | rated (db : Catalog) (u title : Str) (rating : Int) :
      Reachable stdSort db → Reachable stdSort (MovieDatabase.rateMovie db u title rating).1
  | reviewed (db : Catalog) (u title review : Str) :
      Reachable stdSort db → Reachable stdSort (MovieDatabase.reviewMovie db u title review).1

/-! ## `std::sort` as the GNU library implements it

The functions of `bits/stl_algo.h` and `bits/stl_heap.h` behind `std::sort(first, last, comp)`,
on a vector given as a list; iterators are positions counted from the beginning of the
vector.  The loops the library leaves unguarded (they stop at an element the partition put
there) carry a budget of the length of the vector. -/

namespace GnuSort

/-- The element `*(begin + i)`. -/
def elem {α : Type} [Inhabited α] (xs : List α) (i : Nat) : α := xs.getD i default

/-- The call `std::iter_swap(begin + i, begin + j)`. -/
def iterSwap {α : Type} [Inhabited α] (xs : List α) (i j : Nat) : List α :=
  (xs.set i (elem xs j)).set j (elem xs i)

/-- The loop of `__unguarded_linear_insert`: `val` moves down from position `next + 1` while
it is smaller than the element in front of it. -/
def linearInsertLoop {α : Type} [Inhabited α] (comp : α → α → Bool) (val : α) :
    Nat → List α → List α
  | 0, xs => xs.set 0 val
  | next + 1, xs =>
    if comp val (elem xs next) then
      linearInsertLoop comp val next (xs.set (next + 1) (elem xs next))
    else xs.set (next + 1) val

/-- The function `__unguarded_linear_insert(last, comp)`. -/
def unguardedLinearInsert {α : Type} [Inhabited α] (comp : α → α → Bool) (last : Nat)
    (xs : List α) : List α :=
  linearInsertLoop comp (elem xs last) last xs

/-- The loop of `__insertion_sort` from position `i`, `n` elements to go: an element smaller
than the first one is moved to the front (`move_backward`), any other is inserted by
`__unguarded_linear_insert`. -/
def insertionSortLoop {α : Type} [Inhabited α] (comp : α → α → Bool) (first : Nat) :
    Nat → Nat → List α → List α
  | 0, _, xs => xs
  | n + 1, i, xs =>
    if comp (elem xs i) (elem xs first) then
      insertionSortLoop comp first n (i + 1)
        (xs.take first ++ elem xs i :: (xs.drop first).take (i - first) ++ xs.drop (i + 1))
    else insertionSortLoop comp first n (i + 1) (unguardedLinearInsert comp i xs)

/-- The function `__insertion_sort(first, last, comp)`. -/
def insertionSort {α : Type} [Inhabited α] (comp : α → α → Bool) (first last : Nat)
    (xs : List α) : List α :=
  if first = last then xs
  else insertionSortLoop comp first (last - (first + 1)) (first + 1) xs

/-- The function `__unguarded_insertion_sort`, from position `i`, `n` elements to go. -/
def unguardedInsertionSort {α : Type} [Inhabited α] (comp : α → α → Bool) :
    Nat → Nat → List α → List α
  | 0, _, xs => xs
  | n + 1, i, xs => unguardedInsertionSort comp n (i + 1) (unguardedLinearInsert comp i xs)

/-- The constant `_S_threshold`. -/
def S_threshold : Nat := 16

/-- The function `__final_insertion_sort(first, last, comp)`. -/
def finalInsertionSort {α : Type} [Inhabited α] (comp : α → α → Bool) (first last : Nat)
    (xs : List α) : List α :=
  if last - first > S_threshold then
    unguardedInsertionSort comp (last - (first + S_threshold)) (first + S_threshold)
      (insertionSort comp first (first + S_threshold) xs)
  else insertionSort comp first last xs

/-- The function `__move_median_to_first(result, a, b, c, comp)`. -/
def moveMedianToFirst {α : Type} [Inhabited α] (comp : α → α → Bool) (result a b c : Nat)
    (xs : List α) : List α :=
  if comp (elem xs a) (elem xs b) then
    if comp (elem xs b) (elem xs c) then iterSwap xs result b
    else if comp (elem xs a) (elem xs c) then iterSwap xs result c
    else iterSwap xs result a
  else if comp (elem xs a) (elem xs c) then iterSwap xs result a
  else if comp (elem xs b) (elem xs c) then iterSwap xs result c
  else iterSwap xs result b

/-- The loop `while (comp(first, pivot)) ++first;` of `__unguarded_partition`. -/
def advance {α : Type} [Inhabited α] (comp : α → α → Bool) (pivot : Nat) (xs : List α) :
    Nat → Nat → Nat
  | 0, first => first
  | fuel + 1, first =>
    if comp (elem xs first) (elem xs pivot) then advance comp pivot xs fuel (first + 1)
    else first

/-- The loop `while (comp(pivot, last)) --last;` of `__unguarded_partition`. -/
def retreat {α : Type} [Inhabited α] (comp : α → α → Bool) (pivot : Nat) (xs : List α) :
    Nat → Nat
  | 0 => 0
  | last + 1 =>
    if comp (elem xs pivot) (elem xs (last + 1)) then retreat comp pivot xs last
    else last + 1

/-- The function `__unguarded_partition(first, last, pivot, comp)`: the cut and the vector. -/
def unguardedPartition {α : Type} [Inhabited α] (comp : α → α → Bool) (pivot : Nat) :
    Nat → Nat → Nat → List α → Nat × List α
  | 0, first, _, xs => (first, xs)
  | fuel + 1, first, last, xs =>
    let first1 := advance comp pivot xs xs.length first
    let last1 := retreat comp pivot xs (last - 1)
    if first1 < last1 then
      unguardedPartition comp pivot fuel (first1 + 1) last1 (iterSwap xs first1 last1)
    else (first1, xs)

/-- The function `__unguarded_partition_pivot(first, last, comp)`. -/
def unguardedPartitionPivot {α : Type} [Inhabited α] (comp : α → α → Bool)
    (first last : Nat) (xs : List α) : Nat × List α :=
  let mid := first + (last - first) / 2
  let xs1 := moveMedianToFirst comp first (first + 1) mid (last - 1) xs
  unguardedPartition comp first xs.length (first + 1) last xs1

/-- The function `__push_heap(first, holeIndex, topIndex, value, comp)`. -/
def pushHeap {α : Type} [Inhabited α] (comp : α → α → Bool) (value : α) (topIndex : Nat) :
    Nat → Nat → List α → List α
  | 0, holeIndex, xs => xs.set holeIndex value
  | fuel + 1, holeIndex, xs =>
    let parent := (holeIndex - 1) / 2
    if holeIndex > topIndex ∧ comp (elem xs parent) value = true then
      pushHeap comp value topIndex fuel parent (xs.set holeIndex (elem xs parent))
    else xs.set holeIndex value

/-- The first loop of `__adjust_heap`: the vector, `holeIndex` and `secondChild` after it. -/
def siftDown {α : Type} [Inhabited α] (comp : α → α → Bool) (len : Nat) :
    Nat → Nat → Nat → List α → List α × Nat × Nat
  | 0, holeIndex, secondChild, xs => (xs, holeIndex, secondChild)
  | fuel + 1, holeIndex, secondChild, xs =>
    if secondChild < (len - 1) / 2 then
      let sc := 2 * (secondChild + 1)
      let sc := if comp (elem xs sc) (elem xs (sc - 1)) then sc - 1 else sc
      siftDown comp len fuel sc sc (xs.set holeIndex (elem xs sc))
    else (xs, holeIndex, secondChild)

/-- The function `__adjust_heap(first, holeIndex, len, value, comp)`. -/
def adjustHeap {α : Type} [Inhabited α] (comp : α → α → Bool) (holeIndex len : Nat)
    (value : α) (xs : List α) : List α :=
  let (xs1, hole1, sc1) := siftDown comp len len holeIndex holeIndex xs
  if len % 2 = 0 ∧ sc1 = (len - 2) / 2 then
    let sc2 := 2 * (sc1 + 1)
    pushHeap comp value holeIndex len (sc2 - 1) (xs1.set hole1 (elem xs1 (sc2 - 1)))
  else pushHeap comp value holeIndex len hole1 xs1

/-- The loop of `__make_heap`, from `parent` down to 0. -/
def makeHeapLoop {α : Type} [Inhabited α] (comp : α → α → Bool) (len : Nat) :
    Nat → List α → List α
  | 0, xs => adjustHeap comp 0 len (elem xs 0) xs
  | parent + 1, xs =>
    makeHeapLoop comp len parent (adjustHeap comp (parent + 1) len (elem xs (parent + 1)) xs)

/-- The function `__make_heap(first, last, comp)` on a whole vector. -/
def makeHeap {α : Type} [Inhabited α] (comp : α → α → Bool) (xs : List α) : List α :=
  if xs.length < 2 then xs else makeHeapLoop comp xs.length ((xs.length - 2) / 2) xs

/-- The loop of `__sort_heap`: `--last; __pop_heap(first, last, last, comp)` while more than
one element is left; `n + 1` is the position `last` reaches. -/
def sortHeapLoop {α : Type} [Inhabited α] (comp : α → α → Bool) : Nat → List α → List α
  | 0, xs => xs
  | n + 1, xs =>
    sortHeapLoop comp n (adjustHeap comp 0 (n + 1) (elem xs (n + 1)) (xs.set (n + 1) (elem xs 0)))

/-- The call `__partial_sort(first, last, last, comp)` on a whole vector: `__heap_select`, which
is `__make_heap` here, and `__sort_heap`. -/
def heapSort {α : Type} [Inhabited α] (comp : α → α → Bool) (xs : List α) : List α :=
  sortHeapLoop comp (makeHeap comp xs).length.pred (makeHeap comp xs)

/-- The call `__partial_sort(first, last, last, comp)` on a part of the vector. -/
def partialSort {α : Type} [Inhabited α] (comp : α → α → Bool) (first last : Nat)
    (xs : List α) : List α :=
  xs.take first ++ heapSort comp ((xs.drop first).take (last - first)) ++ xs.drop last

/-- The function `__introsort_loop(first, last, depth_limit, comp)`: every round of its loop
uses up one unit of `depth_limit`. -/
def introsortLoop {α : Type} [Inhabited α] (comp : α → α → Bool) :
    Nat → Nat → Nat → List α → List α
  | 0, first, last, xs =>
    if last - first > S_threshold then partialSort comp first last xs else xs
  | depth + 1, first, last, xs =>
    if last - first > S_threshold then
      introsortLoop comp depth first (unguardedPartitionPivot comp first last xs).1
        (introsortLoop comp depth (unguardedPartitionPivot comp first last xs).1 last
          (unguardedPartitionPivot comp first last xs).2)
    else xs

/-- The loop behind `__lg`. -/
def lgAux : Nat → Nat → Nat
  | 0, _ => 0
  | fuel + 1, n => if n < 2 then 0 else lgAux fuel (n / 2) + 1

/-- The function `__lg(n)`: the position of the highest bit of `n`. -/
def lg (n : Nat) : Nat := lgAux n n

/-- The function `std::sort(v.begin(), v.end(), comp)`. -/
def sort {α : Type} [Inhabited α] (comp : α → α → Bool) (xs : List α) : List α :=
  if xs.length = 0 then xs
  else finalInsertionSort comp 0 xs.length (introsortLoop comp (lg xs.length * 2) 0 xs.length xs)

end GnuSort

/-! ## Vocabulary of the statements -/

/-- All movies of a catalog, library after library. -/
def allMovies (db : Catalog) : List Movie := (db.map Prod.snd).flatten

/-- The list `ratings[username]` of a movie: the ratings stored under the user, none when the
user has no entry. -/
def ratingsOf (username : Str) (m : Movie) : List Int :=
  m.userRatings.index username []

/-- The number of movies in a list that have the given title and a non-empty
`ratings[username]`. -/
def ratedIn (username : Str) (lib : List Movie) (t : Str) : Nat :=
  (lib.filter (fun m => decide (ratingsOf username m ≠ []) && decide (m.title = t))).length

/-- The rating and review maps of a movie have no key other than `u`. -/
def KeysOnly (u : Str) (m : Movie) : Prop :=
  (∀ k ∈ StdMap.keys m.userRatings, k = u) ∧ (∀ k ∈ StdMap.keys m.userReviews, k = u)


/-- Index `i` holds `m`, the first movie of `lib` whose title is `title`. -/
def IsFirstMatch (lib : List Movie) (title : Str) (i : Nat) (m : Movie) : Prop :=
  lib[i]? = some m ∧ m.title = title ∧
    ∀ j m', j < i → lib[j]? = some m' → m'.title ≠ title

/-- Two movies agree on the six fields the text format carries. -/
@[reducible] def SameCarried (a b : Movie) : Prop :=
  a.title = b.title ∧ a.year = b.year ∧ a.director = b.director ∧ a.genre = b.genre ∧
    a.cast = b.cast ∧ a.plotSummary = b.plotSummary

/-- The keys of a map are in strictly ascending order, as in every `std::map`. -/
def SortedKeys {β : Type} (m : StdMap β) : Prop :=
  (StdMap.keys m).Pairwise (fun a b => strLess a b = true)

/-- The map `freq` holds exactly the positive counts `cnt`, under keys in order. -/
def Counts (freq : StdMap Int) (cnt : Str → Nat) : Prop :=
  SortedKeys freq ∧ ∀ t, StdMap.find freq t = if cnt t = 0 then none else some (cnt t : Int)

/-- No double quote occurs in the title, the director, the genre or a cast member. -/
def QuoteFree (m : Movie) : Prop :=
  DQUOTE ∉ m.title ∧ DQUOTE ∉ m.director ∧ DQUOTE ∉ m.genre ∧ ∀ a ∈ m.cast, DQUOTE ∉ a

/-- The movie with its rating and review maps emptied. -/
def withoutMaps (m : Movie) : Movie :=
  { m with userRatings := [], userReviews := [] }

/-- The text at which `fromString` looks for the year, leading white space skipped. -/
def yearText (str : Str) : Str :=
  (Movie.yearPosition str).1.buf.dropWhile IStream.isSpace

/-- The record `fromString` returns for a line, `none` when it throws. -/
def decoded (year0 : Int) (line : Str) : Option Movie :=
  match Movie.fromString year0 line with
  | Result.ok m => some m
  | _ => none

/-- Every movie of every entry has no rating or review key other than the key of the entry. -/
def OwnKeys (db : Catalog) : Prop :=
  ∀ e ∈ db, ∀ m ∈ e.2, KeysOnly e.1 m

/-! ## Sample data -/

/-- A sample movie with the given title and year. -/
def sample (t : String) (y : Int) : Movie :=
  Movie.mk6 t.toList y "D".toList "G".toList [] "P".toList

/-- The user name used in the examples. -/
def alice : Str := "alice".toList

/-- A catalog in which `alice` owns three movies, two of them titled `Dune`. -/
def sampleDb : Catalog :=
  [(alice, [sample "Alien" 1979, sample "Dune" 1984, sample "Dune" 2021])]

/-- A movie without any delimiter character in its fields. -/
def alien : Movie :=
  Movie.mk6 "Alien".toList 1979 "Ridley Scott".toList "Horror".toList
    ["Sigourney Weaver".toList] "In space".toList

/-- The only movie `fromString (toString r)` ever agrees with on the carried fields. -/
def blank : Movie := Movie.mk6 " ".toList 0 [] [] [] []

/-- A line in the shape `toString` writes, with letters where the year belongs. -/
def badYearLine : Str :=
  ("\x7b\"title\": \"\", \"year\": abc, \"director\": \"D\", \"genre\": \"G\", "
    ++ "\"cast\": [], \"plotSummary\": \"P\"\x7d").toList

/-- A movie with an empty title and director and a genre of eight characters. -/
def thriller : Movie := Movie.mk6 [] 1999 [] "Thriller".toList [] []

/-- A line that is not the encoding of any movie. -/
def garbageLine : Str := "not a movie \"record\" at all!!".toList

/-- A file of three encoded movies and `garbageLine`, each line with a value of its own for
the uninitialised `year`. -/
def importLines : List FileLine :=
  [⟨7, Movie.toString (sample "Alien" 1979)⟩, ⟨8, Movie.toString (sample "Dune" 1984)⟩,
   ⟨9, Movie.toString (sample "Heat" 1995)⟩, ⟨10, garbageLine⟩]

/-- A file of two lines too short to reach the year. -/
def shortLines : List FileLine := [⟨0, "x".toList⟩, ⟨2005, "y".toList⟩]

/-- Seventeen movies titled `Dune`, of the years 2000 to 2016 in this order. -/
def seventeenDunes : List Movie :=
  (List.range 17).map (fun i => sample "Dune" (2000 + (i : Int)))

/-- A catalog in which `alice` owns `seventeenDunes`. -/
def dunes17 : Catalog := [(alice, seventeenDunes)]

/-- A second user name used in the examples. -/
def bob : Str := "bob".toList

/-- A movie with one cast member whose name contains a quote, a comma and a quote. -/
def oneMember : Movie :=
  Movie.mk6 "T".toList 1 "D".toList "G".toList ["a\", \"b".toList] "P".toList

/-- The same movie with the two cast members `a` and `b`. -/
def twoMembers : Movie :=
  Movie.mk6 "T".toList 1 "D".toList "G".toList ["a".toList, "b".toList] "P".toList

/-- A movie whose plot summary has two lines. -/
def twoLines : Movie :=
  Movie.mk6 "T".toList 1 "D".toList "G".toList [] "one\ntwo".toList

/-- A movie without any delimiter character in its fields. -/
def dune : Movie :=
  Movie.mk6 "Dune".toList 1984 "Lynch".toList "SciFi".toList ["Kyle".toList] "Sand".toList

/-- A catalog in which `alice` has rated `Dune` and `bob` owns an unrated `Alien`. -/
def ratedDb : Catalog :=
  (MovieDatabase.rateMovie
    (MovieDatabase.addMovie (MovieDatabase.addMovie [] alice (sample "Dune" 1984)) bob
      (sample "Alien" 1979)) alice "Dune".toList 5).1

/-! ## Ordered maps: reading after writing -/

theorem StdMap.find_assign_same {β : Type} (m : StdMap β) (k : Str) (v : β) :
    StdMap.find (StdMap.assign m k v) k = some v := by
  induction m with
  | nil => simp [StdMap.assign, StdMap.find]
  | cons p rest ih =>
    obtain ⟨k', v'⟩ := p
    by_cases h : k = k'
    · simp [StdMap.assign, StdMap.find, h]
    · by_cases hl : strLess k k' = true
      · simp [StdMap.assign, StdMap.find, h, hl]
      · simp [StdMap.assign, StdMap.find, h, hl, ih]

theorem StdMap.find_assign_other {β : Type} (m : StdMap β) (k k2 : Str) (v : β) (hne : k2 ≠ k) :
    StdMap.find (StdMap.assign m k v) k2 = StdMap.find m k2 := by
  induction m with
  | nil => simp [StdMap.assign, StdMap.find, hne]
  | cons p rest ih =>
    obtain ⟨k', v'⟩ := p
    by_cases h : k = k'
    · subst h
      simp [StdMap.assign, StdMap.find, hne]
    · by_cases hl : strLess k k' = true
      · simp [StdMap.assign, StdMap.find, h, hl, hne]
      · simp [StdMap.assign, StdMap.find, h, hl, ih]

theorem StdMap.index_assign_same {β : Type} (m : StdMap β) (k : Str) (v d : β) :
    StdMap.index (StdMap.assign m k v) k d = v := by
  simp [StdMap.index, StdMap.find_assign_same]

theorem StdMap.index_assign_other {β : Type} (m : StdMap β) (k k2 : Str) (v d : β)
    (hne : k2 ≠ k) : StdMap.index (StdMap.assign m k v) k2 d = StdMap.index m k2 d := by
  simp [StdMap.index, StdMap.find_assign_other m k k2 v hne]

/-! ## The input stream: basic facts -/

namespace Codec

open IStream

theorem upTo_not_mem (d : Char) (l : Str) : d ∉ upTo d l := by
  induction l with
  | nil => simp [upTo]
  | cons c cs ih =>
    by_cases h : c = d
    · simp [upTo, h]
    · simp only [upTo, h, if_false, List.mem_cons, not_or]
      exact ⟨fun hd => h hd.symm, ih⟩

theorem not_mem_of_after_none (d : Char) (l : Str) (h : after d l = none) : d ∉ l := by
  induction l with
  | nil => simp
  | cons c cs ih =>
    by_cases hc : c = d
    · simp [after, hc] at h
    · simp only [after, hc, if_false] at h
      simp only [List.mem_cons, not_or]
      exact ⟨fun hd => hc hd.symm, ih h⟩

theorem after_length (d : Char) (l rest : Str) (h : after d l = some rest) :
    rest.length < l.length := by
  induction l with
  | nil => simp [after] at h
  | cons c cs ih =>
    by_cases hc : c = d
    · simp only [after, hc, if_true, Option.some.injEq] at h
      subst h
      simp
    · simp only [after, hc, if_false] at h
      have := ih h
      simp only [List.length_cons]
      omega

/-- The text `getline` stores never contains the delimiter when the call succeeded. -/
theorem getline_not_mem (s : IStream) (str : Str) (d : Char)
    (h : (s.getline str d).1.failbit = false) : d ∉ (s.getline str d).2 := by
  by_cases hg : s.good = true
  · cases ha : after d s.buf with
    | none =>
      simp only [getline, hg, ha, Bool.not_true, Bool.false_eq_true, if_false]
      exact not_mem_of_after_none d _ ha
    | some rest =>
      simp only [getline, hg, ha, Bool.not_true, Bool.false_eq_true, if_false]
      exact upTo_not_mem d _
  · simp [getline, hg] at h

/-- Starting from an empty string, the text `getline` leaves never contains the delimiter. -/
theorem getline_nil_not_mem (s : IStream) (d : Char) : d ∉ (s.getline [] d).2 := by
  by_cases hg : s.good = true
  · cases ha : after d s.buf with
    | none =>
      simp only [getline, hg, ha, Bool.not_true, Bool.false_eq_true, if_false]
      exact not_mem_of_after_none d _ ha
    | some rest =>
      simp only [getline, hg, ha, Bool.not_true, Bool.false_eq_true, if_false]
      exact upTo_not_mem d _
  · simp [getline, hg]

/-- A successful `getline` extracts at least one character. -/
theorem getline_length_lt (s : IStream) (str : Str) (d : Char)
    (h : (s.getline str d).1.failbit = false) :
    (s.getline str d).1.buf.length < s.buf.length := by
  by_cases hg : s.good = true
  · cases ha : after d s.buf with
    | none =>
      simp only [getline, hg, ha, Bool.not_true, Bool.false_eq_true, if_false] at h ⊢
      cases hb : s.buf with
      | nil => simp [hb] at h
      | cons c cs => simp
    | some rest =>
      simp only [getline, hg, ha, Bool.not_true, Bool.false_eq_true, if_false]
      exact after_length d _ _ ha
  · simp [getline, hg] at h

theorem ignore_length_le (s : IStream) (n : Nat) : (s.ignore n).buf.length ≤ s.buf.length := by
  unfold ignore
  split_ifs <;> simp

theorem peek_buf (s : IStream) : s.peek.1.buf = s.buf := by
  unfold peek
  split_ifs
  · rfl
  · cases hb : s.buf <;> simp [hb]

/-! ### A stream with `failbit` stays as it is -/

theorem ignore_failbit (s : IStream) (n : Nat) (h : s.failbit = true) :
    (s.ignore n).failbit = true := by
  simp [ignore, good, h]

theorem getline_failbit (s : IStream) (str : Str) (d : Char) (h : s.failbit = true) :
    (s.getline str d).1.failbit = true ∧ (s.getline str d).2 = str := by
  simp [getline, good, h]

/-! ### The loop over the cast -/

theorem substr_mem (s r : Str) (pos k : Nat) (h : substrSizeMinus s pos k = Result.ok r) :
    ∀ c ∈ r, c ∈ s := by
  unfold substrSizeMinus at h
  by_cases hp : s.length < pos
  · simp [hp] at h
  · simp only [hp, if_false, Result.ok.injEq] at h
    subst h
    intro c hc
    exact List.mem_of_mem_drop (List.mem_of_mem_take hc)

/-- With more fuel than characters left the loop never runs out of fuel. -/
theorem castLoop_fuel_free (fuel : Nat) (ss : IStream) (actor : Str) (cast : List Str)
    (h : ss.buf.length < fuel) : Movie.castLoop fuel ss actor cast ≠ Result.fuel := by
  induction fuel generalizing ss actor cast with
  | zero => omega
  | succ n ih =>
    rcases hgl : ss.getline actor COMMA with ⟨ss1, actor1⟩
    have hlen : ss1.failbit = false → ss1.buf.length < ss.buf.length := by
      intro hf
      have := getline_length_lt ss actor COMMA (by rw [hgl]; exact hf)
      rw [hgl] at this
      exact this
    by_cases hf : ss1.failbit = true
    · simp [Movie.castLoop, hgl, IStream.toBool, hf]
    · have hf' : ss1.failbit = false := by simpa using hf
      cases hsub : substrSizeMinus actor1 1 2 with
      | ok actor2 =>
        rcases hpk : ss1.peek with ⟨ss2, c⟩
        have hb2 : ss2.buf = ss1.buf := by
          have := peek_buf ss1
          rw [hpk] at this
          exact this
        by_cases hc : c = some RBRACKET
        · simp [Movie.castLoop, hgl, IStream.toBool, hf', hsub, hpk, hc]
        · simp only [Movie.castLoop, hgl, IStream.toBool, hf', hsub, hpk, hc, Bool.not_false,
            Bool.not_true, Bool.false_eq_true, if_false]
          apply ih
          have h1 := ignore_length_le ss2 2
          have h2 := hlen hf'
          rw [hb2] at h1
          omega
      | out_of_range => simp [Movie.castLoop, hgl, IStream.toBool, hf', hsub]
      | fuel =>
        unfold substrSizeMinus at hsub
        split_ifs at hsub

/-- The loop only appends members that contain no comma. -/
theorem castLoop_no_comma (fuel : Nat) (ss : IStream) (actor : Str) (cast : List Str)
    (ss' : IStream) (cast' : List Str) (hc : ∀ a ∈ cast, COMMA ∉ a)
    (h : Movie.castLoop fuel ss actor cast = Result.ok (ss', cast')) :
    ∀ a ∈ cast', COMMA ∉ a := by
  induction fuel generalizing ss actor cast with
  | zero => simp [Movie.castLoop] at h
  | succ n ih =>
    rcases hgl : ss.getline actor COMMA with ⟨ss1, actor1⟩
    by_cases hf : ss1.failbit = true
    · simp only [Movie.castLoop, hgl, IStream.toBool, hf, Bool.not_true, Bool.not_false, if_true,
        Result.ok.injEq, Prod.mk.injEq] at h
      rw [← h.2]
      exact hc
    · have hf' : ss1.failbit = false := by simpa using hf
      have hno : COMMA ∉ actor1 := by
        have := getline_not_mem ss actor COMMA (by rw [hgl]; exact hf')
        rw [hgl] at this
        exact this
      cases hsub : substrSizeMinus actor1 1 2 with
      | ok actor2 =>
        have hno2 : COMMA ∉ actor2 := fun hm => hno (substr_mem _ _ _ _ hsub _ hm)
        have hc1 : ∀ a ∈ cast ++ [actor2], COMMA ∉ a := by
          intro a ha
          rcases List.mem_append.mp ha with h1 | h1
          · exact hc a h1
          · simp only [List.mem_singleton] at h1
            subst h1
            exact hno2
        rcases hpk : ss1.peek with ⟨ss2, c⟩
        by_cases hcb : c = some RBRACKET
        · simp only [Movie.castLoop, hgl, IStream.toBool, hf', hsub, hpk, hcb, Bool.not_false,
            Bool.not_true, Bool.false_eq_true, if_false, if_true, Result.ok.injEq,
            Prod.mk.injEq] at h
          rw [← h.2]
          exact hc1
        · simp only [Movie.castLoop, hgl, IStream.toBool, hf', hsub, hpk, hcb, Bool.not_false,
            Bool.not_true, Bool.false_eq_true, if_false] at h
          exact ih _ _ _ hc1 h
      | out_of_range => simp [Movie.castLoop, hgl, IStream.toBool, hf', hsub] at h
      | fuel => simp [Movie.castLoop, hgl, IStream.toBool, hf', hsub] at h

/-- On a stream with `failbit` the loop ends at once and appends nothing. -/
theorem castLoop_failbit (n : Nat) (ss : IStream) (actor : Str) (cast : List Str)
    (h : ss.failbit = true) :
    ∃ ss', Movie.castLoop (n + 1) ss actor cast = Result.ok (ss', cast) ∧ ss'.failbit = true := by
  have hg := getline_failbit ss actor COMMA h
  rcases hgl : ss.getline actor COMMA with ⟨ss1, actor1⟩
  rw [hgl] at hg
  have hf : ss1.failbit = true := hg.1
  exact ⟨ss1, by simp [Movie.castLoop, hgl, IStream.toBool, hf], hf⟩

/-! ### `fromString` as a whole -/

/-- The stream of `fromString` when it enters the loop over the cast. -/
theorem fromString_eq (year0 : Int) (str : Str) :
    Movie.fromString year0 str =
      match Movie.castLoop
          ((((((((Movie.yearPosition str).1.extractInt year0).1.ignore 12).getline []
            DQUOTE).1.ignore 10).getline [] DQUOTE).1.ignore 9).buf.length + 1)
          (((((((Movie.yearPosition str).1.extractInt year0).1.ignore 12).getline []
            DQUOTE).1.ignore 10).getline [] DQUOTE).1.ignore 9) [] [] with
      | Result.ok (ss, cast) =>
        Result.ok (Movie.mk6 (Movie.yearPosition str).2
          ((Movie.yearPosition str).1.extractInt year0).2
          (((((Movie.yearPosition str).1.extractInt year0).1.ignore 12).getline [] DQUOTE).2)
          (((((((Movie.yearPosition str).1.extractInt year0).1.ignore 12).getline []
            DQUOTE).1.ignore 10).getline [] DQUOTE).2)
          cast ((ss.ignore 16).getline [] DQUOTE).2)
      | Result.out_of_range => Result.out_of_range
      | Result.fuel => Result.fuel := by
  rfl

/-- The loop budget `fromString` hands to the loop over the cast is never used up. -/
theorem fromString_fuel_free (year0 : Int) (str : Str) :
    Movie.fromString year0 str ≠ Result.fuel := by
  rw [fromString_eq]
  intro h
  split at h
  · exact absurd h (by simp)
  · exact absurd h (by simp)
  · rename_i hfuel
    exact castLoop_fuel_free _ _ _ _ (Nat.lt_succ_self _) hfuel

theorem yearPosition_title_not_mem (str : Str) : DQUOTE ∉ (Movie.yearPosition str).2 := by
  unfold Movie.yearPosition
  exact getline_nil_not_mem _ _

/-- Whatever the line, the strings `fromString` returns contain no double quote and the cast
members it returns contain no comma. -/
theorem fromString_fields_no_delimiter (year0 : Int) (str : Str) (m : Movie)
    (h : Movie.fromString year0 str = Result.ok m) :
    DQUOTE ∉ m.title ∧ DQUOTE ∉ m.director ∧ DQUOTE ∉ m.genre ∧ DQUOTE ∉ m.plotSummary ∧
      ∀ a ∈ m.cast, COMMA ∉ a := by
  rw [fromString_eq] at h
  split at h
  · rename_i ss cast hloop
    simp only [Result.ok.injEq] at h
    subst h
    refine ⟨yearPosition_title_not_mem str, getline_nil_not_mem _ _, getline_nil_not_mem _ _,
      getline_nil_not_mem _ _, ?_⟩
    exact castLoop_no_comma _ _ _ _ _ _ (by simp) hloop
  · exact absurd h (by simp)
  · exact absurd h (by simp)

/-- When `ss >> year` leaves `failbit` set, every later step is skipped: `fromString` returns
the title read so far, the year `operator>>` left, and nothing else. -/
theorem fromString_of_year_fail (year0 : Int) (str : Str)
    (h : ((Movie.yearPosition str).1.extractInt year0).1.failbit = true) :
    Movie.fromString year0 str
      = Result.ok (Movie.mk6 (Movie.yearPosition str).2
          ((Movie.yearPosition str).1.extractInt year0).2 [] [] [] []) := by
  rw [fromString_eq]
  have h1 := ignore_failbit _ 12 h
  have h2 := getline_failbit _ [] DQUOTE h1
  have h3 := ignore_failbit _ 10 h2.1
  have h4 := getline_failbit _ [] DQUOTE h3
  have h5 := ignore_failbit _ 9 h4.1
  obtain ⟨ss', hloop, hf⟩ := castLoop_failbit
    (((((((Movie.yearPosition str).1.extractInt year0).1.ignore 12).getline []
            DQUOTE).1.ignore 10).getline [] DQUOTE).1.ignore 9).buf.length _ [] [] h5
  rw [hloop]
  have h6 := ignore_failbit ss' 16 hf
  have h7 := getline_failbit _ [] DQUOTE h6
  simp only [h2.2, h4.2, h7.2]

/-! ## The claims about the record codec -/

/-- C2, counterexample: on `badYearLine` no number stands where the year is read, and
`fromString` returns a movie whose year is 0 although `year` held 7 before. -/
theorem fromString_bad_year_returns_zero :
    (IStream.scanInt (yearText badYearLine)).1 = none ∧
      Movie.fromString 7 badYearLine = Result.ok blank ∧ blank.year = 0 := by
  refine ⟨by decide, by decide, by decide⟩

/-- C2, amended: when no optionally signed decimal number stands where the year is read,
`fromString` returns a movie and reports nothing: its director, genre, cast and plot
summary are empty, and its year is 0 when the stream was good and a character other than
white space stood there, and the value `year` held before otherwise. -/
theorem fromString_year_not_integer (year0 : Int) (str : Str)
    (h : (IStream.scanInt (yearText str)).1 = none) :
    Movie.fromString year0 str
      = Result.ok (Movie.mk6 (Movie.yearPosition str).2
          (if (Movie.yearPosition str).1.good = true ∧ yearText str ≠ [] then 0 else year0)
          [] [] [] []) := by
  have key : ((Movie.yearPosition str).1.extractInt year0).1.failbit = true ∧
      ((Movie.yearPosition str).1.extractInt year0).2
        = (if (Movie.yearPosition str).1.good = true ∧ yearText str ≠ [] then 0 else year0) := by
    unfold yearText at h ⊢
    by_cases hg : (Movie.yearPosition str).1.good = true
    · cases hb : (Movie.yearPosition str).1.buf.dropWhile IStream.isSpace with
      | nil => simp [IStream.extractInt, hg, hb]
      | cons c cs =>
        rw [hb] at h
        rcases hsc : IStream.scanInt (c :: cs) with ⟨v, rest⟩
        rw [hsc] at h
        simp only at h
        subst h
        simp [IStream.extractInt, hg, hb, hsc]
    · simp [IStream.extractInt, hg]
  rw [fromString_of_year_fail year0 str key.1, key.2]

/-- Witness of C2, amended, on `badYearLine`. -/
theorem fromString_year_not_integer_witness :
    (IStream.scanInt (yearText badYearLine)).1 = none ∧
      Movie.fromString 7 badYearLine
        = Result.ok (Movie.mk6 (Movie.yearPosition badYearLine).2
            (if (Movie.yearPosition badYearLine).1.good = true ∧ yearText badYearLine ≠ []
              then 0 else 7) [] [] [] []) :=
  ⟨by decide, fromString_year_not_integer 7 badYearLine (by decide)⟩

/-- C3, failing input: the encoding of `thriller` makes the loop over the cast read an empty
token, and `substr(1, ...)` on it throws `std::out_of_range`. -/
theorem fromString_throws_on_thriller :
    Movie.fromString 7 (Movie.toString thriller) = Result.out_of_range := by
  decide

end Codec

namespace MovieDatabase

theorem library_assign_same (db : Catalog) (u : Str) (l : List Movie) :
    library (StdMap.assign db u l) u = l := by
  simp [library, StdMap.index_assign_same]

theorem library_assign_other (db : Catalog) (u v : Str) (l : List Movie) (hne : v ≠ u) :
    library (StdMap.assign db u l) v = library db v := by
  simp [library, StdMap.index_assign_other db u v l [] hne]

theorem editLoop_eq_set (title : Str) (new : Movie) (lib : List Movie) (i : Nat) (m : Movie)
    (h : IsFirstMatch lib title i m) : editLoop title new lib = lib.set i new := by
  induction lib generalizing i with
  | nil => simp [IsFirstMatch] at h
  | cons x rest ih =>
    obtain ⟨hget, ht, hleast⟩ := h
    cases i with
    | zero =>
      simp at hget
      subst hget
      simp [editLoop, ht]
    | succ k =>
      have hx : x.title ≠ title := hleast 0 x (Nat.succ_pos k) (by simp)
      have hrest : IsFirstMatch rest title k m := by
        refine ⟨by simpa using hget, ht, ?_⟩
        intro j m' hj hm'
        exact hleast (j + 1) m' (Nat.succ_lt_succ hj) (by simpa using hm')
      simp [editLoop, hx, ih k hrest]

theorem eraseRemoveIf_eq_filter (pred : Movie → Bool) (lib : List Movie) :
    eraseRemoveIf pred lib = lib.filter (fun m => !pred m) := by
  induction lib with
  | nil => rfl
  | cons x rest ih =>
    by_cases h : pred x = true
    · simp [eraseRemoveIf, h, ih]
    · simp [eraseRemoveIf, h, ih]

theorem rateLoop_eq_set (u title : Str) (r : Int) (lib : List Movie) (i : Nat) (m : Movie)
    (h : IsFirstMatch lib title i m) :
    rateLoop u title r lib = (lib.set i (pushRating m u r), true) := by
  induction lib generalizing i with
  | nil => simp [IsFirstMatch] at h
  | cons x rest ih =>
    obtain ⟨hget, ht, hleast⟩ := h
    cases i with
    | zero =>
      simp at hget
      subst hget
      simp [rateLoop, ht]
    | succ k =>
      have hx : x.title ≠ title := hleast 0 x (Nat.succ_pos k) (by simp)
      have hrest : IsFirstMatch rest title k m := by
        refine ⟨by simpa using hget, ht, ?_⟩
        intro j m' hj hm'
        exact hleast (j + 1) m' (Nat.succ_lt_succ hj) (by simpa using hm')
      simp [rateLoop, hx, ih k hrest]

theorem isFirstMatch_lt (lib : List Movie) (title : Str) (i : Nat) (m : Movie)
    (h : IsFirstMatch lib title i m) : i < lib.length := by
  obtain ⟨hget, _, _⟩ := h
  rcases Nat.lt_or_ge i lib.length with h1 | h1
  · exact h1
  · rw [List.getElem?_eq_none h1] at hget
    exact absurd hget (by simp)

theorem isFirstMatch_set (lib : List Movie) (title : Str) (i : Nat) (m m2 : Movie)
    (h : IsFirstMatch lib title i m) (ht : m2.title = title) :
    IsFirstMatch (lib.set i m2) title i m2 := by
  have hi : i < lib.length := isFirstMatch_lt lib title i m h
  obtain ⟨_, _, hleast⟩ := h
  refine ⟨by simp [hi], ht, ?_⟩
  intro j m' hj hm'
  have hne : i ≠ j := Nat.ne_of_gt hj
  rw [List.getElem?_set_ne hne] at hm'
  exact hleast j m' hj hm'

theorem sampleDb_firstDune :
    IsFirstMatch (library sampleDb alice) "Dune".toList 1 (sample "Dune" 1984) := by
  refine ⟨by decide, by decide, ?_⟩
  intro j m' hj hm'
  have hj0 : j = 0 := by omega
  subst hj0
  have hm : m' = sample "Alien" 1979 := by
    have h0 : (library sampleDb alice)[0]? = some (sample "Alien" 1979) := by decide
    rw [h0] at hm'
    exact (Option.some.inj hm').symm
  subst hm
  decide

theorem filterLoop_title (value : Str) (lib : List Movie) :
    filterLoop "title".toList value lib
      = (lib.filter (fun m => decide (m.title = value))).map Movie.toString := by
  have h1 : "title".toList ≠ "year".toList := by decide
  have h2 : "title".toList ≠ "director".toList := by decide
  have h3 : "title".toList ≠ "genre".toList := by decide
  induction lib with
  | nil => rfl
  | cons x rest ih =>
    by_cases h : x.title = value <;> (simp [filterLoop, h1, h2, h3, h]; exact ih)

theorem filterLoop_year (value : Str) (lib : List Movie) :
    filterLoop "year".toList value lib
      = (lib.filter (fun m => decide (intToString m.year = value))).map Movie.toString := by
  have h1 : "year".toList ≠ "title".toList := by decide
  have h2 : "year".toList ≠ "director".toList := by decide
  have h3 : "year".toList ≠ "genre".toList := by decide
  induction lib with
  | nil => rfl
  | cons x rest ih =>
    by_cases h : intToString x.year = value <;> (simp [filterLoop, h1, h2, h3, h]; exact ih)

theorem filterLoop_director (value : Str) (lib : List Movie) :
    filterLoop "director".toList value lib
      = (lib.filter (fun m => decide (m.director = value))).map Movie.toString := by
  have h1 : "director".toList ≠ "title".toList := by decide
  have h2 : "director".toList ≠ "year".toList := by decide
  have h3 : "director".toList ≠ "genre".toList := by decide
  induction lib with
  | nil => rfl
  | cons x rest ih =>
    by_cases h : x.director = value <;> (simp [filterLoop, h1, h2, h3, h]; exact ih)

theorem filterLoop_genre (value : Str) (lib : List Movie) :
    filterLoop "genre".toList value lib
      = (lib.filter (fun m => decide (m.genre = value))).map Movie.toString := by
  have h1 : "genre".toList ≠ "title".toList := by decide
  have h2 : "genre".toList ≠ "year".toList := by decide
  have h3 : "genre".toList ≠ "director".toList := by decide
  induction lib with
  | nil => rfl
  | cons x rest ih =>
    by_cases h : x.genre = value <;> (simp [filterLoop, h1, h2, h3, h]; exact ih)

theorem library_filterMovies (db : Catalog) (u criteria value v : Str) :
    library (filterMovies db u criteria value).1 v = library db v := by
  by_cases h : v = u
  · subst h
    simp [filterMovies, library_assign_same]
  · simp [filterMovies, library_assign_other db u v _ h]

theorem library_rateMovie (db : Catalog) (u title : Str) (r : Int) (i : Nat) (m : Movie)
    (h : IsFirstMatch (library db u) title i m) :
    library (rateMovie db u title r).1 u = (library db u).set i (pushRating m u r) := by
  simp [rateMovie, library_assign_same, rateLoop_eq_set u title r _ i m h]

/-! ## Sorting -/

theorem strLess_irrefl (a : Str) : strLess a a = false := by
  induction a with
  | nil => rfl
  | cons c cs ih => simp [strLess, ih]

theorem strLess_trans (a b c : Str) (hab : strLess a b = true) (hbc : strLess b c = true) :
    strLess a c = true := by
  induction a generalizing b c with
  | nil =>
    cases b with
    | nil => simp [strLess] at hab
    | cons y ys =>
      cases c with
      | nil => simp [strLess] at hbc
      | cons z zs => simp [strLess]
  | cons x xs ih =>
    cases b with
    | nil => simp [strLess] at hab
    | cons y ys =>
      cases c with
      | nil => simp [strLess] at hbc
      | cons z zs =>
        simp only [strLess] at hab hbc ⊢
        by_cases hxy : x < y
        · by_cases hyz : y < z
          · simp [lt_trans hxy hyz]
          · by_cases hzy : z < y
            · simp [hyz, hzy] at hbc
            · have hyz' : y = z := le_antisymm (not_lt.mp hzy) (not_lt.mp hyz)
              subst hyz'
              simp [hxy]
        · by_cases hyx : y < x
          · simp [hxy, hyx] at hab
          · have hxy' : x = y := le_antisymm (not_lt.mp hyx) (not_lt.mp hxy)
            subst hxy'
            simp only [hxy, if_false] at hab
            by_cases hxz : x < z
            · simp [hxz]
            · by_cases hzx : z < x
              · simp [hxz, hzx] at hbc
              · simp only [hxz, hzx, if_false] at hbc ⊢
                exact ih ys zs hab hbc

theorem strLess_eq_of_incomparable (a b : Str) (hab : strLess a b = false)
    (hba : strLess b a = false) : a = b := by
  induction a generalizing b with
  | nil =>
    cases b with
    | nil => rfl
    | cons y ys => simp [strLess] at hab
  | cons x xs ih =>
    cases b with
    | nil => simp [strLess] at hba
    | cons y ys =>
      simp only [strLess] at hab hba
      by_cases hxy : x < y
      · simp [hxy] at hab
      · by_cases hyx : y < x
        · simp [hyx] at hba
        · have hxy' : x = y := le_antisymm (not_lt.mp hyx) (not_lt.mp hxy)
          subst hxy'
          simp only [hxy, if_false] at hab hba
          rw [ih ys hab hba]

theorem strictWeak_of_key (key : Movie → Str) :
    StrictWeak (fun a b => strLess (key a) (key b)) := by
  refine ⟨fun a => strLess_irrefl _, fun a b c h1 h2 => strLess_trans _ _ _ h1 h2, ?_⟩
  intro a b c h1 h2 h3 h4
  have hab := strLess_eq_of_incomparable _ _ h1 h2
  have hbc := strLess_eq_of_incomparable _ _ h3 h4
  simp only [hab, hbc, strLess_irrefl, and_self]

theorem strictWeak_year : StrictWeak (fun a b => decide (a.year < b.year)) := by
  refine ⟨fun a => by simp, fun a b c h1 h2 => ?_, ?_⟩
  · simp only [decide_eq_true_eq] at h1 h2 ⊢
    omega
  · intro a b c h1 h2 h3 h4
    simp only [decide_eq_false_iff_not] at h1 h2 h3 h4 ⊢
    omega

theorem strictWeak_asymm {comp : Movie → Movie → Bool} (h : StrictWeak comp) (a b : Movie)
    (hab : comp a b = true) : comp b a = false := by
  cases hba : comp b a with
  | false => rfl
  | true =>
    have := h.2.1 a b a hab hba
    rw [h.1 a] at this
    exact absurd this (by simp)

theorem strictWeak_not_lt_trans {comp : Movie → Movie → Bool} (h : StrictWeak comp)
    (a b c : Movie) (hba : comp b a = false) (hcb : comp c b = false) : comp c a = false := by
  cases hca : comp c a with
  | false => rfl
  | true =>
    have hbc : comp b c = false := by
      cases hbc : comp b c with
      | false => rfl
      | true => rw [h.2.1 b c a hbc hca] at hba; exact absurd hba (by simp)
    have hab : comp a b = false := by
      cases hab : comp a b with
      | false => rfl
      | true => rw [h.2.1 c a b hca hab] at hcb; exact absurd hcb (by simp)
    have := (h.2.2 a b c hab hba hbc hcb).2
    rw [hca] at this
    exact absurd this (by simp)

theorem insertBy_perm (before : Movie → Movie → Bool) (x : Movie) (l : List Movie) :
    (insertBy before x l).Perm (x :: l) := by
  induction l with
  | nil => exact List.Perm.refl _
  | cons y ys ih =>
    by_cases h : before x y = true
    · simp [insertBy, h]
    · simp only [insertBy, h]
      exact (List.Perm.cons y ih).trans (List.Perm.swap x y ys)

theorem insertionSortBy_perm (before : Movie → Movie → Bool) (l : List Movie) :
    (insertionSortBy before l).Perm l := by
  induction l with
  | nil => exact List.Perm.refl _
  | cons x xs ih => exact (insertBy_perm before x _).trans (List.Perm.cons x ih)

theorem insertBy_pairwise (comp before : Movie → Movie → Bool) (hc : StrictWeak comp)
    (h1 : ∀ x y, before x y = true → comp y x = false)
    (h2 : ∀ x y, before x y = false → comp x y = false)
    (x : Movie) (l : List Movie) (hl : l.Pairwise (fun a b => comp b a = false)) :
    (insertBy before x l).Pairwise (fun a b => comp b a = false) := by
  induction l with
  | nil => simp [insertBy]
  | cons y ys ih =>
    rw [List.pairwise_cons] at hl
    by_cases h : before x y = true
    · simp only [insertBy, h, if_true]
      refine List.Pairwise.cons ?_ (List.Pairwise.cons hl.1 hl.2)
      intro z hz
      rcases List.mem_cons.mp hz with hzy | hzys
      · subst hzy; exact h1 x z h
      · exact strictWeak_not_lt_trans hc x y z (h1 x y h) (hl.1 z hzys)
    · simp only [insertBy, h]
      refine List.Pairwise.cons ?_ (ih hl.2)
      intro z hz
      rcases List.mem_cons.mp ((insertBy_perm before x ys).mem_iff.mp hz) with hzx | hzys
      · subst hzx; exact h2 z y (by simpa using h)
      · exact hl.1 z hzys

theorem insertionSortBy_pairwise (comp before : Movie → Movie → Bool) (hc : StrictWeak comp)
    (h1 : ∀ x y, before x y = true → comp y x = false)
    (h2 : ∀ x y, before x y = false → comp x y = false) (l : List Movie) :
    (insertionSortBy before l).Pairwise (fun a b => comp b a = false) := by
  induction l with
  | nil => simp [insertionSortBy]
  | cons x xs ih => exact insertBy_pairwise comp before hc h1 h2 x _ ih

theorem stableSort_contract : StdSortContract stableSort := by
  intro comp xs hc
  refine ⟨insertionSortBy_perm _ xs, insertionSortBy_pairwise comp _ hc ?_ ?_ xs⟩
  · intro x y h
    simpa using h
  · intro x y h
    exact strictWeak_asymm hc y x (by simpa using h)

/-! ## The claims about the catalog store -/

/-- C5: when index `i` holds the first movie of the user's library with the given title,
`editMovie` leaves the length of the library unchanged, puts `newRecord` (the whole record,
maps included) at index `i`, and leaves every other index as it was. -/
theorem editMovie_replaces_in_place (db : Catalog) (username title : Str) (newRecord : Movie)
    (i : Nat) (m : Movie) (h : IsFirstMatch (library db username) title i m) :
    (library (editMovie db username title newRecord) username).length
        = (library db username).length ∧
      (library (editMovie db username title newRecord) username)[i]? = some newRecord ∧
      ∀ j, j ≠ i →
        (library (editMovie db username title newRecord) username)[j]?
          = (library db username)[j]? := by
  have hi := isFirstMatch_lt _ _ _ _ h
  have hlib : library (editMovie db username title newRecord) username
      = (library db username).set i newRecord := by
    rw [editMovie, library_assign_same, editLoop_eq_set title newRecord _ i m h]
  rw [hlib]
  refine ⟨by simp, by simp [hi], ?_⟩
  intro j hj
  exact List.getElem?_set_ne (Ne.symm hj)

/-- Witness of C5 on `sampleDb`: the first `Dune` sits at index 1. -/
theorem editMovie_replaces_in_place_witness :
    IsFirstMatch (library sampleDb alice) "Dune".toList 1 (sample "Dune" 1984) ∧
      ((library (editMovie sampleDb alice "Dune".toList (sample "Arrakis" 2000)) alice).length
          = (library sampleDb alice).length ∧
        (library (editMovie sampleDb alice "Dune".toList (sample "Arrakis" 2000)) alice)[1]?
          = some (sample "Arrakis" 2000) ∧
        ∀ j, j ≠ 1 →
          (library (editMovie sampleDb alice "Dune".toList (sample "Arrakis" 2000)) alice)[j]?
            = (library sampleDb alice)[j]?) :=
  ⟨sampleDb_firstDune,
   editMovie_replaces_in_place sampleDb alice "Dune".toList (sample "Arrakis" 2000) 1
     (sample "Dune" 1984) sampleDb_firstDune⟩

/-- C6: after `deleteMovie` the user's library is the previous library restricted to the
movies whose title differs from `title`, in their previous order; it is a subsequence of the
previous library and no movie with that title remains. -/
theorem deleteMovie_removes_every_match (db : Catalog) (username title : Str) :
    library (deleteMovie db username title) username
        = (library db username).filter (fun m => decide (m.title ≠ title)) ∧
      (library (deleteMovie db username title) username).Sublist (library db username) ∧
      ∀ m ∈ library (deleteMovie db username title) username, m.title ≠ title := by
  have hlib : library (deleteMovie db username title) username
      = (library db username).filter (fun m => decide (m.title ≠ title)) := by
    rw [deleteMovie, library_assign_same, eraseRemoveIf_eq_filter]
    congr 1
    funext m
    simp
  rw [hlib]
  refine ⟨rfl, List.filter_sublist _, ?_⟩
  intro m hm
  simpa using (List.mem_filter.mp hm).2

theorem library_sortMovies_perm (stdSort : (Movie → Movie → Bool) → List Movie → List Movie)
    (hsort : StdSortContract stdSort) (db : Catalog) (u criteria : Str) :
    (library (sortMovies stdSort db u criteria) u).Perm (library db u) := by
  unfold sortMovies
  simp only []
  split_ifs
  · rw [library_assign_same]
    exact (hsort _ _ (strictWeak_of_key Movie.title)).1
  · rw [library_assign_same]
    exact (hsort _ _ strictWeak_year).1
  · rw [library_assign_same]
    exact (hsort _ _ (strictWeak_of_key Movie.director)).1
  · rw [library_assign_same]
    exact (hsort _ _ (strictWeak_of_key Movie.genre)).1
  · rw [library_assign_same]

theorem library_sortMovies_title (stdSort : (Movie → Movie → Bool) → List Movie → List Movie)
    (hsort : StdSortContract stdSort) (db : Catalog) (u : Str) :
    (library (sortMovies stdSort db u "title".toList) u).Pairwise
      (fun a b => strLess b.title a.title = false) := by
  have h : library (sortMovies stdSort db u "title".toList) u
      = stdSort (fun a b => strLess a.title b.title) (library db u) := by
    simp [sortMovies, library_assign_same]
  rw [h]
  exact (hsort _ _ (strictWeak_of_key Movie.title)).2

/-- C7: with a sorting routine that meets the contract of `std::sort`, the user's library
after `sortMovies` is a rearrangement of the library before, and for the criteria `title`,
`year`, `director` and `genre` no movie is followed by one with a smaller value of that field
(strings by `<` on `std::string`, the year as an integer). -/
theorem sortMovies_orders_library
    (stdSort : (Movie → Movie → Bool) → List Movie → List Movie)
    (hsort : StdSortContract stdSort) (db : Catalog) (username : Str) :
    (∀ criteria, (library (sortMovies stdSort db username criteria) username).Perm
        (library db username)) ∧
      (library (sortMovies stdSort db username "title".toList) username).Pairwise
        (fun a b => strLess b.title a.title = false) ∧
      (library (sortMovies stdSort db username "year".toList) username).Pairwise
        (fun a b => a.year ≤ b.year) ∧
      (library (sortMovies stdSort db username "director".toList) username).Pairwise
        (fun a b => strLess b.director a.director = false) ∧
      (library (sortMovies stdSort db username "genre".toList) username).Pairwise
        (fun a b => strLess b.genre a.genre = false) := by
  refine ⟨fun criteria => library_sortMovies_perm stdSort hsort db username criteria,
    library_sortMovies_title stdSort hsort db username, ?_, ?_, ?_⟩
  · have h : library (sortMovies stdSort db username "year".toList) username
        = stdSort (fun a b => decide (a.year < b.year)) (library db username) := by
      have h1 : "year".toList ≠ "title".toList := by decide
      simp [sortMovies, library_assign_same, h1]
    rw [h]
    refine (hsort _ _ strictWeak_year).2.imp ?_
    intro a b hab
    simpa using hab
  · have h : library (sortMovies stdSort db username "director".toList) username
        = stdSort (fun a b => strLess a.director b.director) (library db username) := by
      have h1 : "director".toList ≠ "title".toList := by decide
      have h2 : "director".toList ≠ "year".toList := by decide
      simp [sortMovies, library_assign_same, h1, h2]
    rw [h]
    exact (hsort _ _ (strictWeak_of_key Movie.director)).2
  · have h : library (sortMovies stdSort db username "genre".toList) username
        = stdSort (fun a b => strLess a.genre b.genre) (library db username) := by
      have h1 : "genre".toList ≠ "title".toList := by decide
      have h2 : "genre".toList ≠ "year".toList := by decide
      have h3 : "genre".toList ≠ "director".toList := by decide
      simp [sortMovies, library_assign_same, h1, h2, h3]
    rw [h]
    exact (hsort _ _ (strictWeak_of_key Movie.genre)).2

/-- Witness of C7: the stable insertion sort meets the contract; `sampleDb` sorted with it. -/
theorem sortMovies_orders_library_witness :
    StdSortContract stableSort ∧
      ((∀ criteria, (library (sortMovies stableSort sampleDb alice criteria) alice).Perm
          (library sampleDb alice)) ∧
        (library (sortMovies stableSort sampleDb alice "title".toList) alice).Pairwise
          (fun a b => strLess b.title a.title = false) ∧
        (library (sortMovies stableSort sampleDb alice "year".toList) alice).Pairwise
          (fun a b => a.year ≤ b.year) ∧
        (library (sortMovies stableSort sampleDb alice "director".toList) alice).Pairwise
          (fun a b => strLess b.director a.director = false) ∧
        (library (sortMovies stableSort sampleDb alice "genre".toList) alice).Pairwise
          (fun a b => strLess b.genre a.genre = false)) :=
  ⟨stableSort_contract, sortMovies_orders_library stableSort stableSort_contract sampleDb alice⟩

set_option maxRecDepth 100000 in
/-- C8, counterexample: with `std::sort` as the GNU C++ library implements it, a library of
seventeen movies titled `Dune`, of the years 2000 to 2016 in this order, is after
`sortMovies(u, "year")` still in this order, and after the following `sortMovies(u, "title")`
in the order 2008, 2016, 2015, ..., 2009, 2000, 2007, 2006, ..., 2001: the partition step of
the introsort loop swaps elements that compare equal.  The library is ordered by title, but
the movies with equal titles did not keep their relative order and are not in ascending year
order. -/
theorem sortMovies_gnu_not_stable :
    (library (sortMovies GnuSort.sort dunes17 alice "year".toList) alice).map Movie.year
        = [2000, 2001, 2002, 2003, 2004, 2005, 2006, 2007, 2008, 2009, 2010, 2011, 2012, 2013,
            2014, 2015, 2016] ∧
      (library (sortMovies GnuSort.sort (sortMovies GnuSort.sort dunes17 alice "year".toList)
          alice "title".toList) alice).map Movie.year
        = [2008, 2016, 2015, 2014, 2013, 2012, 2011, 2010, 2009, 2000, 2007, 2006, 2005, 2004,
            2003, 2002, 2001] ∧
      (library (sortMovies GnuSort.sort (sortMovies GnuSort.sort dunes17 alice "year".toList)
          alice "title".toList) alice).Pairwise
          (fun a b => strLess b.title a.title = false) ∧
      ¬ (library (sortMovies GnuSort.sort (sortMovies GnuSort.sort dunes17 alice
          "year".toList) alice "title".toList) alice).Pairwise
          (fun a b => a.title = b.title → a.year ≤ b.year) := by
  have h1 : library (sortMovies GnuSort.sort dunes17 alice "year".toList) alice
      = seventeenDunes := by rfl
  have h2 : library (sortMovies GnuSort.sort (sortMovies GnuSort.sort dunes17 alice
      "year".toList) alice "title".toList) alice
      = [2008, 2016, 2015, 2014, 2013, 2012, 2011, 2010, 2009, 2000, 2007, 2006, 2005, 2004,
          2003, 2002, 2001].map (sample "Dune") := by rfl
  rw [h1, h2]
  refine ⟨by rfl, by rfl, by decide, by decide⟩

/-- C8, amended: with a sorting routine that meets the contract of `std::sort`, sorting by
year and then by title leaves a rearrangement of the library that is in ascending title
order, and for every title the movies carrying it are the same as before, rearranged; their
relative order is not fixed. -/
theorem sortMovies_year_then_title
    (stdSort : (Movie → Movie → Bool) → List Movie → List Movie)
    (hsort : StdSortContract stdSort) (db : Catalog) (username : Str) :
    (library (sortMovies stdSort (sortMovies stdSort db username "year".toList) username
        "title".toList) username).Perm (library db username) ∧
      (library (sortMovies stdSort (sortMovies stdSort db username "year".toList) username
        "title".toList) username).Pairwise (fun a b => strLess b.title a.title = false) ∧
      ∀ t : Str,
        ((library (sortMovies stdSort (sortMovies stdSort db username "year".toList) username
          "title".toList) username).filter (fun m => decide (m.title = t))).Perm
          ((library db username).filter (fun m => decide (m.title = t))) := by
  have hp := (library_sortMovies_perm stdSort hsort _ username "title".toList).trans
    (library_sortMovies_perm stdSort hsort db username "year".toList)
  exact ⟨hp, library_sortMovies_title stdSort hsort _ username, fun t => hp.filter _⟩

/-- Witness of C8, amended: the stable sort on the seventeen movies titled `Dune`. -/
theorem sortMovies_year_then_title_witness :
    StdSortContract stableSort ∧
      (library (sortMovies stableSort (sortMovies stableSort dunes17 alice
        "year".toList) alice "title".toList) alice).Perm (library dunes17 alice) :=
  ⟨stableSort_contract,
   (sortMovies_year_then_title stableSort stableSort_contract dunes17 alice).1⟩

/-- C9: for each of the four criteria the lines `filterMovies` writes are the encodings of
exactly the movies of the user's library whose field equals `value` (the year through its
decimal text), in library order; nothing is written when no movie matches; and every
library reads the same afterwards. -/
theorem filterMovies_selects_matches (db : Catalog) (username value : Str) :
    (filterMovies db username "title".toList value).2
        = ((library db username).filter (fun m => decide (m.title = value))).map Movie.toString ∧
      (filterMovies db username "year".toList value).2
        = ((library db username).filter
            (fun m => decide (intToString m.year = value))).map Movie.toString ∧
      (filterMovies db username "director".toList value).2
        = ((library db username).filter
            (fun m => decide (m.director = value))).map Movie.toString ∧
      (filterMovies db username "genre".toList value).2
        = ((library db username).filter (fun m => decide (m.genre = value))).map Movie.toString ∧
      (∀ criteria v, library (filterMovies db username criteria value).1 v = library db v) := by
  refine ⟨?_, ?_, ?_, ?_, ?_⟩
  · exact filterLoop_title value _
  · exact filterLoop_year value _
  · exact filterLoop_director value _
  · exact filterLoop_genre value _
  · intro criteria v
    exact library_filterMovies db username criteria value v

/-- C10: when index `i` holds the first movie `m` of the user's library with the given title,
two calls of `rateMovie` with ratings `a` and `b` leave at index `i` a movie whose ratings
under `username` are those of `m` followed by `a` and `b`, with the ratings of every other
user, the reviews and the six carried fields as in `m`; every other index of the library and
every other library is unchanged. -/
theorem rateMovie_accumulates (db : Catalog) (username title : Str) (a b : Int)
    (i : Nat) (m : Movie) (h : IsFirstMatch (library db username) title i m) :
    (library (rateMovie (rateMovie db username title a).1 username title b).1 username).length
        = (library db username).length ∧
      (∃ m2,
        (library (rateMovie (rateMovie db username title a).1 username title b).1 username)[i]?
          = some m2 ∧
        m2.userRatings.index username [] = m.userRatings.index username [] ++ [a, b] ∧
        (∀ k, k ≠ username → m2.userRatings.find k = m.userRatings.find k) ∧
        SameCarried m2 m ∧ m2.userReviews = m.userReviews) ∧
      (∀ j, j ≠ i →
        (library (rateMovie (rateMovie db username title a).1 username title b).1 username)[j]?
          = (library db username)[j]?) ∧
      (∀ v, v ≠ username →
        library (rateMovie (rateMovie db username title a).1 username title b).1 v
          = library db v) := by
  have hi := isFirstMatch_lt _ _ _ _ h
  have ht : m.title = title := h.2.1
  have h1 := library_rateMovie db username title a i m h
  have hfm : IsFirstMatch (library (rateMovie db username title a).1 username) title i
      (pushRating m username a) := by
    rw [h1]
    exact isFirstMatch_set _ title i m _ h (by simpa [pushRating] using ht)
  have h2 : library (rateMovie (rateMovie db username title a).1 username title b).1 username
      = (library db username).set i (pushRating (pushRating m username a) username b) := by
    rw [library_rateMovie _ username title b i _ hfm, h1]
    simp
  refine ⟨by rw [h2]; simp, ⟨pushRating (pushRating m username a) username b, ?_, ?_, ?_, ?_, ?_⟩,
    ?_, ?_⟩
  · rw [h2]; simp [hi]
  · simp [pushRating, StdMap.index_assign_same]
  · intro k hk
    simp [pushRating, StdMap.find_assign_other _ username k _ hk]
  · simp [SameCarried, pushRating]
  · simp [pushRating]
  · intro j hj
    rw [h2]
    exact List.getElem?_set_ne (Ne.symm hj)
  · intro v hv
    simp [rateMovie, library_assign_other _ username v _ hv]

/-- Witness of C10 on `sampleDb`: rating the first `Dune` with 4 and then 5. -/
theorem rateMovie_accumulates_witness :
    IsFirstMatch (library sampleDb alice) "Dune".toList 1 (sample "Dune" 1984) ∧
      ∃ m2,
        (library (rateMovie (rateMovie sampleDb alice "Dune".toList 4).1 alice
            "Dune".toList 5).1 alice)[1]? = some m2 ∧
        m2.userRatings.index alice []
          = (sample "Dune" 1984).userRatings.index alice [] ++ [4, 5] :=
  ⟨sampleDb_firstDune,
   (rateMovie_accumulates sampleDb alice "Dune".toList 4 5 1 (sample "Dune" 1984)
      sampleDb_firstDune).2.1.imp (fun _ hm2 => ⟨hm2.1, hm2.2.1⟩)⟩

/-! ## Ordered maps: keys -/

theorem strLess_asymm (a b : Str) (h : strLess a b = true) : strLess b a = false := by
  cases hba : strLess b a with
  | false => rfl
  | true =>
    have := strLess_trans a b a h hba
    rw [strLess_irrefl] at this
    exact absurd this (by simp)

theorem assign_cons_eq {β : Type} (rest : StdMap β) (k : Str) (v v' : β) :
    StdMap.assign ((k, v') :: rest) k v = (k, v) :: rest := by
  simp [StdMap.assign]

theorem assign_cons_lt {β : Type} (rest : StdMap β) (k k' : Str) (v v' : β) (h : k ≠ k')
    (hl : strLess k k' = true) :
    StdMap.assign ((k', v') :: rest) k v = (k, v) :: (k', v') :: rest := by
  simp [StdMap.assign, h, hl]

theorem assign_cons_gt {β : Type} (rest : StdMap β) (k k' : Str) (v v' : β) (h : k ≠ k')
    (hl : ¬ strLess k k' = true) :
    StdMap.assign ((k', v') :: rest) k v = (k', v') :: StdMap.assign rest k v := by
  simp [StdMap.assign, h, hl]

theorem keys_cons {β : Type} (rest : StdMap β) (k : Str) (v : β) :
    StdMap.keys ((k, v) :: rest) = k :: StdMap.keys rest := rfl

theorem sortedKeys_cons {β : Type} (rest : StdMap β) (k : Str) (v : β) :
    SortedKeys ((k, v) :: rest)
      ↔ (∀ b ∈ StdMap.keys rest, strLess k b = true) ∧ SortedKeys rest := by
  unfold SortedKeys
  rw [keys_cons, List.pairwise_cons]

theorem assign_assign {β : Type} (m : StdMap β) (k : Str) (v1 v2 : β) :
    StdMap.assign (StdMap.assign m k v1) k v2 = StdMap.assign m k v2 := by
  induction m with
  | nil => simp [StdMap.assign]
  | cons p rest ih =>
    obtain ⟨k', v'⟩ := p
    by_cases h : k = k'
    · subst h
      rw [assign_cons_eq, assign_cons_eq, assign_cons_eq]
    · by_cases hl : strLess k k' = true
      · rw [assign_cons_lt _ _ _ _ _ h hl, assign_cons_eq, assign_cons_lt _ _ _ _ _ h hl]
      · rw [assign_cons_gt _ _ _ _ _ h hl, assign_cons_gt _ _ _ _ _ h hl, ih,
          assign_cons_gt _ _ _ _ _ h hl]

theorem mem_assign {β : Type} (m : StdMap β) (k : Str) (v : β) (e : Str × β)
    (he : e ∈ StdMap.assign m k v) : e = (k, v) ∨ e ∈ m := by
  induction m with
  | nil =>
    have : e ∈ [(k, v)] := he
    exact Or.inl (List.mem_singleton.mp this)
  | cons p rest ih =>
    obtain ⟨k', v'⟩ := p
    by_cases h : k = k'
    · subst h
      rw [assign_cons_eq] at he
      rcases List.mem_cons.mp he with h1 | h1
      · exact Or.inl h1
      · exact Or.inr (List.mem_cons_of_mem _ h1)
    · by_cases hl : strLess k k' = true
      · rw [assign_cons_lt _ _ _ _ _ h hl] at he
        exact List.mem_cons.mp he
      · rw [assign_cons_gt _ _ _ _ _ h hl] at he
        rcases List.mem_cons.mp he with h1 | h1
        · exact Or.inr (by rw [h1]; exact List.mem_cons_self _ _)
        · rcases ih h1 with h2 | h2
          · exact Or.inl h2
          · exact Or.inr (List.mem_cons_of_mem _ h2)

theorem mem_keys_assign {β : Type} (m : StdMap β) (k k2 : Str) (v : β) :
    k2 ∈ StdMap.keys (StdMap.assign m k v) ↔ k2 = k ∨ k2 ∈ StdMap.keys m := by
  induction m with
  | nil =>
    show k2 ∈ [k] ↔ k2 = k ∨ k2 ∈ []
    simp
  | cons p rest ih =>
    obtain ⟨k', v'⟩ := p
    by_cases h : k = k'
    · subst h
      rw [assign_cons_eq, keys_cons, keys_cons, List.mem_cons]
      tauto
    · by_cases hl : strLess k k' = true
      · rw [assign_cons_lt _ _ _ _ _ h hl, keys_cons, List.mem_cons]
      · rw [assign_cons_gt _ _ _ _ _ h hl, keys_cons, keys_cons, List.mem_cons, List.mem_cons,
          ih]
        tauto

theorem mem_of_find {β : Type} (m : StdMap β) (k : Str) (v : β)
    (h : StdMap.find m k = some v) : (k, v) ∈ m := by
  induction m with
  | nil => simp [StdMap.find] at h
  | cons p rest ih =>
    obtain ⟨k', v'⟩ := p
    by_cases hk : k = k'
    · subst hk
      simp only [StdMap.find, if_true, Option.some.injEq] at h
      rw [h]
      exact List.mem_cons_self _ _
    · simp only [StdMap.find, hk, if_false] at h
      exact List.mem_cons_of_mem _ (ih h)

theorem mem_keys_of_find {β : Type} (m : StdMap β) (k : Str) (v : β)
    (h : StdMap.find m k = some v) : k ∈ StdMap.keys m :=
  List.mem_map.mpr ⟨(k, v), mem_of_find m k v h, rfl⟩

theorem find_none_of_not_mem_keys {β : Type} (m : StdMap β) (k : Str)
    (h : k ∉ StdMap.keys m) : StdMap.find m k = none := by
  cases hf : StdMap.find m k with
  | none => rfl
  | some v => exact absurd (mem_keys_of_find m k v hf) h

theorem sortedKeys_assign {β : Type} (m : StdMap β) (k : Str) (v : β) (h : SortedKeys m) :
    SortedKeys (StdMap.assign m k v) := by
  induction m with
  | nil =>
    show List.Pairwise _ [k]
    exact List.pairwise_singleton _ _
  | cons p rest ih =>
    obtain ⟨k', v'⟩ := p
    have h' := (sortedKeys_cons rest k' v').mp h
    by_cases hk : k = k'
    · subst hk
      rw [assign_cons_eq]
      exact (sortedKeys_cons rest k v).mpr h'
    · by_cases hl : strLess k k' = true
      · rw [assign_cons_lt _ _ _ _ _ hk hl]
        refine (sortedKeys_cons _ k v).mpr ⟨?_, h⟩
        intro b hb
        rw [keys_cons] at hb
        rcases List.mem_cons.mp hb with hb | hb
        · rw [hb]; exact hl
        · exact strLess_trans _ _ _ hl (h'.1 b hb)
      · have hlt : strLess k' k = true := by
          cases hkk : strLess k' k with
          | true => rfl
          | false =>
            exact absurd (strLess_eq_of_incomparable k k' (by simpa using hl) hkk) hk
        rw [assign_cons_gt _ _ _ _ _ hk hl]
        refine (sortedKeys_cons _ k' v').mpr ⟨?_, ih h'.2⟩
        intro b hb
        rcases (mem_keys_assign rest k b v).mp hb with hb | hb
        · rw [hb]; exact hlt
        · exact h'.1 b hb

theorem nodup_keys_of_sorted {β : Type} (m : StdMap β) (h : SortedKeys m) :
    (StdMap.keys m).Nodup := by
  refine List.Pairwise.imp ?_ h
  intro a b hab heq
  rw [heq, strLess_irrefl] at hab
  exact absurd hab (by simp)

theorem assign_self {β : Type} (m : StdMap β) (k : Str) (v : β) (hs : SortedKeys m)
    (h : StdMap.find m k = some v) : StdMap.assign m k v = m := by
  induction m with
  | nil => simp [StdMap.find] at h
  | cons p rest ih =>
    obtain ⟨k', v'⟩ := p
    have h' := (sortedKeys_cons rest k' v').mp hs
    by_cases hk : k = k'
    · subst hk
      simp only [StdMap.find, if_true, Option.some.injEq] at h
      rw [assign_cons_eq, h]
    · simp only [StdMap.find, hk, if_false] at h
      have hlt : strLess k' k = true := h'.1 k (mem_keys_of_find rest k v h)
      have hl : ¬ strLess k k' = true := by
        rw [strLess_asymm _ _ hlt]
        simp
      rw [assign_cons_gt _ _ _ _ _ hk hl, ih h'.2 h]

theorem find_of_mem_keys {β : Type} (m : StdMap β) (k : Str) (h : k ∈ StdMap.keys m) :
    ∃ v, StdMap.find m k = some v := by
  induction m with
  | nil => exact absurd h (List.not_mem_nil _)
  | cons p rest ih =>
    obtain ⟨k', v'⟩ := p
    by_cases hk : k = k'
    · exact ⟨v', by simp [StdMap.find, hk]⟩
    · rw [keys_cons] at h
      rcases List.mem_cons.mp h with h1 | h1
      · exact absurd h1 hk
      · obtain ⟨v, hv⟩ := ih h1
        exact ⟨v, by simp only [StdMap.find, hk, if_false]; exact hv⟩

/-! ## Reviews, edits without a match, and other users -/

theorem reviewLoop_eq_set (u title t : Str) (lib : List Movie) (i : Nat) (m : Movie)
    (h : IsFirstMatch lib title i m) :
    reviewLoop u title t lib = (lib.set i (setReview m u t), true) := by
  induction lib generalizing i with
  | nil => simp [IsFirstMatch] at h
  | cons x rest ih =>
    obtain ⟨hget, ht, hleast⟩ := h
    cases i with
    | zero =>
      simp at hget
      subst hget
      simp [reviewLoop, ht]
    | succ k =>
      have hx : x.title ≠ title := hleast 0 x (Nat.succ_pos k) (by simp)
      have hrest : IsFirstMatch rest title k m := by
        refine ⟨by simpa using hget, ht, ?_⟩
        intro j m' hj hm'
        exact hleast (j + 1) m' (Nat.succ_lt_succ hj) (by simpa using hm')
      simp [reviewLoop, hx, ih k hrest]

theorem reviewLoop_twice (u title t1 t2 : Str) (lib : List Movie) :
    (reviewLoop u title t2 (reviewLoop u title t1 lib).1).1 = (reviewLoop u title t2 lib).1 := by
  induction lib with
  | nil => rfl
  | cons x rest ih =>
    by_cases hx : x.title = title
    · have hx' : (setReview x u t1).title = title := hx
      simp [reviewLoop, hx, hx', setReview, assign_assign]
    · simp [reviewLoop, hx, ih]

theorem editLoop_no_match (title : Str) (new : Movie) (lib : List Movie)
    (h : ∀ m ∈ lib, m.title ≠ title) : editLoop title new lib = lib := by
  induction lib with
  | nil => rfl
  | cons x rest ih =>
    have hx : x.title ≠ title := h x (List.mem_cons_self _ _)
    simp [editLoop, hx, ih (fun m hm => h m (List.mem_cons_of_mem _ hm))]

/-- C11: when index `i` holds the first movie `m` of the user's library with the given title,
`reviewMovie` with `t1` and then with `t2` leaves the same catalog as `reviewMovie` with `t2`
alone; the movie at index `i` then has `t2` as the review of `username`, and when the keys
of the reviews of `m` were in order (as in every `std::map`) they still are, no key occurs
twice and `username` is one of them: one review per user. -/
theorem reviewMovie_last_write_wins (db : Catalog) (username title t1 t2 : Str)
    (i : Nat) (m : Movie) (h : IsFirstMatch (library db username) title i m) :
    (reviewMovie (reviewMovie db username title t1).1 username title t2).1
        = (reviewMovie db username title t2).1 ∧
      ∃ m2,
        (library (reviewMovie (reviewMovie db username title t1).1 username title t2).1
          username)[i]? = some m2 ∧
        m2.userReviews.find username = some t2 ∧
        (SortedKeys m.userReviews →
          SortedKeys m2.userReviews ∧ (StdMap.keys m2.userReviews).Nodup ∧
            username ∈ StdMap.keys m2.userReviews) := by
  have hi := isFirstMatch_lt _ _ _ _ h
  have heq : (reviewMovie (reviewMovie db username title t1).1 username title t2).1
      = (reviewMovie db username title t2).1 := by
    simp only [reviewMovie, library_assign_same, assign_assign, reviewLoop_twice]
  have hlib : library (reviewMovie db username title t2).1 username
      = (library db username).set i (setReview m username t2) := by
    simp only [reviewMovie, library_assign_same, reviewLoop_eq_set username title t2 _ i m h]
  refine ⟨heq, setReview m username t2, ?_, ?_, ?_⟩
  · rw [heq, hlib]
    simp [hi]
  · exact StdMap.find_assign_same _ _ _
  · intro hs
    have hs2 : SortedKeys (setReview m username t2).userReviews :=
      sortedKeys_assign _ _ _ hs
    exact ⟨hs2, nodup_keys_of_sorted _ hs2, (mem_keys_assign _ _ _ _).mpr (Or.inl rfl)⟩

/-- Witness of C11 on `sampleDb`: reviewing the first `Dune` twice. -/
theorem reviewMovie_last_write_wins_witness :
    IsFirstMatch (library sampleDb alice) "Dune".toList 1 (sample "Dune" 1984) ∧
      (reviewMovie (reviewMovie sampleDb alice "Dune".toList "dull".toList).1 alice
          "Dune".toList "great".toList).1
        = (reviewMovie sampleDb alice "Dune".toList "great".toList).1 :=
  ⟨sampleDb_firstDune,
   (reviewMovie_last_write_wins sampleDb alice "Dune".toList "dull".toList "great".toList 1
      (sample "Dune" 1984) sampleDb_firstDune).1⟩

/-! ## Loading and importing -/

theorem decoded_of_ok (year0 : Int) (line : Str) (m : Movie)
    (h : Movie.fromString year0 line = Result.ok m) : decoded year0 line = some m := by
  unfold decoded
  rw [h]

theorem importMovies_cons (line : FileLine) (rest : List FileLine) (u : Str) (db : Catalog) :
    importMovies (line :: rest) u db
      = if line.text.isEmpty then importMovies rest u db
        else match Movie.fromString line.year0 line.text with
          | Result.ok movie =>
            importMovies rest u (db.assign u (library db u ++ [movie]))
          | Result.out_of_range => Result.out_of_range
          | Result.fuel => Result.fuel :=
  rfl

theorem importMovies_cons_empty (line : FileLine) (rest : List FileLine) (u : Str)
    (db : Catalog) (he : line.text.isEmpty = true) :
    importMovies (line :: rest) u db = importMovies rest u db := by
  rw [importMovies_cons, if_pos he]

theorem importMovies_cons_ok (line : FileLine) (rest : List FileLine) (u : Str)
    (db : Catalog) (m : Movie) (hne : line.text.isEmpty = false)
    (hm : Movie.fromString line.year0 line.text = Result.ok m) :
    importMovies (line :: rest) u db
      = importMovies rest u (db.assign u (library db u ++ [m])) := by
  rw [importMovies_cons, hne, hm]
  rfl

theorem importMovies_find_other (lines : List FileLine) (u v : Str) (db db2 : Catalog)
    (hv : v ≠ u) (h : importMovies lines u db = Result.ok db2) :
    StdMap.find db2 v = StdMap.find db v := by
  induction lines generalizing db with
  | nil =>
    have h0 : importMovies [] u db = Result.ok db := rfl
    rw [h0] at h
    rw [Result.ok.inj h]
  | cons line rest ih =>
    rw [importMovies_cons] at h
    by_cases he : line.text.isEmpty = true
    · rw [if_pos he] at h
      exact ih db h
    · rw [if_neg he] at h
      cases hfs : Movie.fromString line.year0 line.text with
      | ok movie =>
        rw [hfs] at h
        rw [ih _ h]
        exact StdMap.find_assign_other db u v _ hv
      | out_of_range => rw [hfs] at h; exact absurd h (by simp)
      | fuel => rw [hfs] at h; exact absurd h (by simp)

theorem filter_text_cons_empty (line : FileLine) (rest : List FileLine)
    (he : line.text.isEmpty = true) :
    List.filter (fun l : FileLine => !l.text.isEmpty) (line :: rest)
      = List.filter (fun l : FileLine => !l.text.isEmpty) rest := by
  rw [List.filter_cons, he]
  rfl

theorem filter_text_cons (line : FileLine) (rest : List FileLine)
    (hne : line.text.isEmpty = false) :
    List.filter (fun l : FileLine => !l.text.isEmpty) (line :: rest)
      = line :: List.filter (fun l : FileLine => !l.text.isEmpty) rest := by
  rw [List.filter_cons, hne]
  rfl

theorem isEmpty_false_of_ne (line : Str) (he : line ≠ []) : line.isEmpty = false := by
  cases line with
  | nil => exact absurd rfl he
  | cons c cs => rfl

theorem isEmpty_true_eq (line : Str) (he : line.isEmpty = true) : line = [] := by
  cases line with
  | nil => rfl
  | cons c cs => exact absurd he (by simp)

/-- What a completed `importMovies` has done. -/
theorem importMovies_ok_spec (lines : List FileLine) (u : Str) (db db2 : Catalog)
    (h : importMovies lines u db = Result.ok db2) :
    library db2 u
        = library db u
          ++ (lines.filter (fun l => !l.text.isEmpty)).filterMap
              (fun l => decoded l.year0 l.text) ∧
      (library db2 u).length
        = (library db u).length + (lines.filter (fun l => !l.text.isEmpty)).length ∧
      (∀ line ∈ lines, line.text ≠ [] →
        ∃ m, Movie.fromString line.year0 line.text = Result.ok m) ∧
      (∀ k, k ∈ StdMap.keys db2 → k = u ∨ k ∈ StdMap.keys db) := by
  induction lines generalizing db with
  | nil =>
    have h0 : importMovies [] u db = Result.ok db := rfl
    rw [h0] at h
    rw [← Result.ok.inj h]
    exact ⟨by simp, by simp, fun _ hl => absurd hl (List.not_mem_nil _), fun k hk => Or.inr hk⟩
  | cons line rest ih =>
    rw [importMovies_cons] at h
    by_cases he : line.text.isEmpty = true
    · rw [if_pos he] at h
      obtain ⟨h1, h2, h3, h4⟩ := ih db h
      rw [filter_text_cons_empty line rest he]
      refine ⟨h1, h2, ?_, h4⟩
      intro l hl hne
      rcases List.mem_cons.mp hl with h5 | h5
      · rw [h5] at hne
        exact absurd (isEmpty_true_eq _ he) hne
      · exact h3 l h5 hne
    · rw [if_neg he] at h
      have hne : line.text.isEmpty = false := by simpa using he
      cases hfs : Movie.fromString line.year0 line.text with
      | ok movie =>
        rw [hfs] at h
        obtain ⟨h1, h2, h3, h4⟩ := ih _ h
        rw [filter_text_cons line rest hne]
        refine ⟨?_, ?_, ?_, ?_⟩
        · rw [h1, library_assign_same, List.filterMap_cons,
            decoded_of_ok line.year0 line.text movie hfs]
          exact List.append_assoc _ _ _
        · rw [h2, library_assign_same, List.length_append]
          simp only [List.length_cons, List.length_nil]
          omega
        · intro l hl hn
          rcases List.mem_cons.mp hl with h5 | h5
          · rw [h5]; exact ⟨movie, hfs⟩
          · exact h3 l h5 hn
        · intro k hk
          rcases h4 k hk with h5 | h5
          · exact Or.inl h5
          · exact (mem_keys_assign db u k _).mp h5
      | out_of_range => rw [hfs] at h; exact absurd h (by simp)
      | fuel => rw [hfs] at h; exact absurd h (by simp)

/-- The method `importMovies` returns when `fromString` does for every non-empty line. -/
theorem importMovies_returns (lines : List FileLine) (u : Str) (db : Catalog)
    (h : ∀ line ∈ lines, line.text ≠ [] →
      ∃ m, Movie.fromString line.year0 line.text = Result.ok m) :
    ∃ db2, importMovies lines u db = Result.ok db2 := by
  induction lines generalizing db with
  | nil => exact ⟨db, rfl⟩
  | cons line rest ih =>
    have hrest : ∀ l ∈ rest, l.text ≠ [] →
        ∃ m, Movie.fromString l.year0 l.text = Result.ok m :=
      fun l hl => h l (List.mem_cons_of_mem _ hl)
    by_cases he : line.text = []
    · rw [importMovies_cons_empty line rest u db (by rw [he]; rfl)]
      exact ih db hrest
    · obtain ⟨m, hm⟩ := h line (List.mem_cons_self _ _) he
      rw [importMovies_cons_ok line rest u db m (isEmpty_false_of_ne _ he) hm]
      exact ih _ hrest

theorem loadFromFile_cons (line : FileLine) (rest : List FileLine) (db : Catalog) :
    loadFromFile (line :: rest) db
      = if line.text.isEmpty then loadFromFile rest db
        else match Movie.fromString line.year0 line.text with
          | Result.ok movie =>
            loadFromFile rest (db.assign defaultUser (library db defaultUser ++ [movie]))
          | Result.out_of_range => Result.out_of_range
          | Result.fuel => Result.fuel :=
  rfl

/-- The method `loadFromFile` does what `importMovies` does for the user `default`. -/
theorem loadFromFile_eq_importMovies (lines : List FileLine) (db : Catalog) :
    loadFromFile lines db = importMovies lines defaultUser db := by
  induction lines generalizing db with
  | nil => rfl
  | cons line rest ih =>
    rw [loadFromFile_cons, importMovies_cons]
    by_cases he : line.text.isEmpty = true
    · rw [if_pos he, if_pos he]
      exact ih db
    · rw [if_neg he, if_neg he]
      cases hfs : Movie.fromString line.year0 line.text with
      | ok movie => exact ih _
      | out_of_range => rfl
      | fuel => rfl

/-- Two lines too short to reach the year are loaded as two movies, each with the year its own
call of `fromString` started from. -/
theorem loadFromFile_shortLines :
    loadFromFile shortLines []
      = Result.ok [(defaultUser, [Movie.mk6 [] 0 [] [] [] [], Movie.mk6 [] 2005 [] [] [] []])] := by
  rfl

theorem toString_ne_garbageLine (r : Movie) : Movie.toString r ≠ garbageLine := by
  intro h
  have h0 := congrArg List.head? h
  simp [Movie.toString, garbageLine] at h0

set_option maxRecDepth 8000 in
/-- C4, counterexample: `garbageLine` is not the encoding of any movie, yet importing the
three encoded movies and `garbageLine` into an empty catalog leaves four movies in the
library, the last of them made from `garbageLine`; no line is skipped. -/
theorem importMovies_keeps_malformed_line :
    (∀ r, Movie.toString r ≠ garbageLine) ∧
      importMovies importLines alice []
        = Result.ok [(alice, [blank, blank, blank,
            Movie.mk6 "ie ".toList 0 [] [] [] []])] ∧
      (library [(alice, [blank, blank, blank, Movie.mk6 "ie ".toList 0 [] [] [] []])]
        alice).length = 4 :=
  ⟨toString_ne_garbageLine, by rfl, by rfl⟩

/-- C4, amended: for every list of lines, each with the value the uninitialised `year` of its
own call of `fromString` holds: when `fromString` returns for every non-empty line,
`importMovies` returns and the user's library is its previous content followed by the movie
`fromString` returns for each non-empty line, in file order: one movie per non-empty line,
none skipped; the other libraries are unchanged. -/
theorem importMovies_appends_every_line (lines : List FileLine) (username : Str)
    (db : Catalog)
    (h : ∀ line ∈ lines, line.text ≠ [] →
      ∃ m, Movie.fromString line.year0 line.text = Result.ok m) :
    ∃ db2, importMovies lines username db = Result.ok db2 ∧
      library db2 username
        = library db username
            ++ (lines.filter (fun l => !l.text.isEmpty)).filterMap
                (fun l => decoded l.year0 l.text) ∧
      (library db2 username).length
        = (library db username).length + (lines.filter (fun l => !l.text.isEmpty)).length ∧
      ∀ v, v ≠ username → library db2 v = library db v := by
  obtain ⟨db2, hdb⟩ := importMovies_returns lines username db h
  obtain ⟨h1, h2, _, _⟩ := importMovies_ok_spec lines username db db2 hdb
  refine ⟨db2, hdb, h1, h2, ?_⟩
  intro v hv
  unfold library StdMap.index
  rw [importMovies_find_other lines username v db db2 hv hdb]

/-- Witness of C4, amended: a file made of an empty line and `garbageLine`. -/
theorem importMovies_appends_every_line_witness :
    (∀ line ∈ [(⟨7, []⟩ : FileLine), ⟨2005, garbageLine⟩], line.text ≠ [] →
        ∃ m, Movie.fromString line.year0 line.text = Result.ok m) ∧
      ∃ db2, importMovies [⟨7, []⟩, ⟨2005, garbageLine⟩] alice sampleDb = Result.ok db2 ∧
        (library db2 alice).length = (library sampleDb alice).length + 1 :=
  ⟨fun line hl _ => by
      simp only [List.mem_cons, List.mem_singleton, List.not_mem_nil, or_false] at hl
      rcases hl with rfl | rfl
      · exact ⟨_, rfl⟩
      · exact ⟨_, rfl⟩,
   (importMovies_appends_every_line [⟨7, []⟩, ⟨2005, garbageLine⟩] alice sampleDb
      (fun line hl _ => by
        simp only [List.mem_cons, List.mem_singleton, List.not_mem_nil, or_false] at hl
        rcases hl with rfl | rfl
        · exact ⟨_, rfl⟩
        · exact ⟨_, rfl⟩)).imp (fun _ hdb => ⟨hdb.1, hdb.2.2.1⟩)⟩

/-- C17: for every list of lines, each with the value the uninitialised `year` of its own
call of `fromString` holds: when `loadFromFile` completes on an empty catalog, the catalog has
no key other than `default`, and the library of `default` is the list of the movies
`fromString` returns for the non-empty lines, in file order, one per non-empty line; and it
completes exactly when `fromString` returns for every non-empty line. -/
theorem loadFromFile_fills_default (lines : List FileLine) :
    (∀ db2, loadFromFile lines [] = Result.ok db2 →
        (∀ k ∈ StdMap.keys db2, k = defaultUser) ∧
        library db2 defaultUser
          = (lines.filter (fun l => !l.text.isEmpty)).filterMap
              (fun l => decoded l.year0 l.text) ∧
        (library db2 defaultUser).length
          = (lines.filter (fun l => !l.text.isEmpty)).length) ∧
      ((∃ db2, loadFromFile lines [] = Result.ok db2) ↔
        ∀ line ∈ lines, line.text ≠ [] →
          ∃ m, Movie.fromString line.year0 line.text = Result.ok m) := by
  constructor
  · intro db2 h
    rw [loadFromFile_eq_importMovies] at h
    obtain ⟨h1, h2, _, h4⟩ := importMovies_ok_spec lines defaultUser [] db2 h
    refine ⟨?_, ?_, ?_⟩
    · intro k hk
      rcases h4 k hk with h5 | h5
      · exact h5
      · exact absurd h5 (List.not_mem_nil _)
    · rw [h1]
      rfl
    · rw [h2]
      show 0 + _ = _
      omega
  · constructor
    · rintro ⟨db2, h⟩
      rw [loadFromFile_eq_importMovies] at h
      exact (importMovies_ok_spec lines defaultUser [] db2 h).2.2.1
    · intro h
      rw [loadFromFile_eq_importMovies]
      exact importMovies_returns lines defaultUser [] h

/-! ## Edits without a match and other users -/

/-- C15, counterexample: `bob` has no library in the empty catalog; `editMovie` for `bob`
finds no movie to replace and still leaves a catalog with the key `bob`. -/
theorem editMovie_creates_library :
    library [] bob = [] ∧
      editMovie [] bob "Dune".toList (sample "Dune" 1984) = [(bob, [])] ∧
      StdMap.keys (editMovie [] bob "Dune".toList (sample "Dune" 1984))
        ≠ StdMap.keys ([] : Catalog) := by
  refine ⟨rfl, rfl, ?_⟩
  decide

/-- C15, amended: when the user's library holds no movie with the title, `editMovie` leaves the
movies of every library as they were and the entry of every other user untouched; a
catalog with ordered keys that has an entry for the user is returned unchanged; and when
the user has no entry, an entry with an empty library is created and no other key. -/
theorem editMovie_no_match (db : Catalog) (username title : Str) (newRecord : Movie)
    (hno : ∀ m ∈ library db username, m.title ≠ title) :
    (∀ v, library (editMovie db username title newRecord) v = library db v) ∧
      (∀ v, v ≠ username →
        StdMap.find (editMovie db username title newRecord) v = StdMap.find db v) ∧
      (SortedKeys db → username ∈ StdMap.keys db →
        editMovie db username title newRecord = db) ∧
      (username ∉ StdMap.keys db →
        StdMap.find (editMovie db username title newRecord) username = some [] ∧
        ∀ k, k ∈ StdMap.keys (editMovie db username title newRecord)
          ↔ k = username ∨ k ∈ StdMap.keys db) := by
  have he : editMovie db username title newRecord
      = db.assign username (library db username) := by
    rw [editMovie, editLoop_no_match title newRecord _ hno]
  rw [he]
  refine ⟨?_, ?_, ?_, ?_⟩
  · intro v
    by_cases hv : v = username
    · rw [hv, library_assign_same]
    · exact library_assign_other db username v _ hv
  · intro v hv
    exact StdMap.find_assign_other db username v _ hv
  · intro hs hk
    obtain ⟨l, hl⟩ := find_of_mem_keys db username hk
    have hlib : library db username = l := by
      simp [library, StdMap.index, hl]
    rw [hlib]
    exact assign_self db username l hs hl
  · intro hk
    have hnone := find_none_of_not_mem_keys db username hk
    have hlib : library db username = [] := by
      simp [library, StdMap.index, hnone]
    rw [hlib]
    exact ⟨StdMap.find_assign_same _ _ _, fun k => mem_keys_assign db username k _⟩

/-- Witness of C15, amended: `alice` owns no movie titled `Heat` in `sampleDb`. -/
theorem editMovie_no_match_witness :
    (∀ m ∈ library sampleDb alice, m.title ≠ "Heat".toList) ∧
      editMovie sampleDb alice "Heat".toList (sample "Heat" 1995) = sampleDb :=
  ⟨by decide,
   (editMovie_no_match sampleDb alice "Heat".toList (sample "Heat" 1995) (by decide)).2.2.1
     (List.pairwise_singleton _ alice) (by decide)⟩

/-- C19: an operation addressed to `u` leaves the entry of every other user `v` of the catalog
as it was (present or absent, with the same movies in the same order and the same maps):
`addMovie`, `editMovie`, `deleteMovie`, `sortMovies` with any sorting routine, `rateMovie`,
`reviewMovie`, and `importMovies` whenever it completes. -/
theorem other_libraries_untouched (db : Catalog) (u v : Str) (hv : v ≠ u) :
    (∀ movie, StdMap.find (addMovie db u movie) v = StdMap.find db v) ∧
      (∀ title movie, StdMap.find (editMovie db u title movie) v = StdMap.find db v) ∧
      (∀ title, StdMap.find (deleteMovie db u title) v = StdMap.find db v) ∧
      (∀ stdSort criteria, StdMap.find (sortMovies stdSort db u criteria) v = StdMap.find db v) ∧
      (∀ title rating, StdMap.find (rateMovie db u title rating).1 v = StdMap.find db v) ∧
      (∀ title review, StdMap.find (reviewMovie db u title review).1 v = StdMap.find db v) ∧
      (∀ lines db2, importMovies lines u db = Result.ok db2 →
        StdMap.find db2 v = StdMap.find db v) := by
  refine ⟨?_, ?_, ?_, ?_, ?_, ?_, ?_⟩
  · intro movie
    exact StdMap.find_assign_other db u v _ hv
  · intro title movie
    exact StdMap.find_assign_other db u v _ hv
  · intro title
    exact StdMap.find_assign_other db u v _ hv
  · intro stdSort criteria
    unfold sortMovies
    simp only []
    split_ifs <;> exact StdMap.find_assign_other db u v _ hv
  · intro title rating
    exact StdMap.find_assign_other db u v _ hv
  · intro title review
    exact StdMap.find_assign_other db u v _ hv
  · intro lines db2 h
    exact importMovies_find_other lines u v db db2 hv h

/-- Witness of C19: `bob` and `alice` are different users of `sampleDb`. -/
theorem other_libraries_untouched_witness :
    bob ≠ alice ∧
      ∀ movie, StdMap.find (addMovie sampleDb alice movie) bob = StdMap.find sampleDb bob :=
  ⟨by decide, (other_libraries_untouched sampleDb alice bob (by decide)).1⟩

end MovieDatabase

/-! ## The text `toString` writes -/

namespace Codec

theorem digitChar_spec (k : Nat) (hk : k < 10) :
    IStream.isDigit (Nat.digitChar k) = true ∧ (Nat.digitChar k).toNat - '0'.toNat = k := by
  interval_cases k <;> exact ⟨by decide, by decide⟩

theorem toDigitsCore_value (fuel n : Nat) (ds : Str) (h : n < fuel) :
    List.foldl (fun acc c => 10 * acc + (c.toNat - '0'.toNat)) 0 (Nat.toDigitsCore 10 fuel n ds)
      = List.foldl (fun acc c => 10 * acc + (c.toNat - '0'.toNat)) n ds := by
  induction fuel generalizing n ds with
  | zero => omega
  | succ f ih =>
    have hd := (digitChar_spec (n % 10) (Nat.mod_lt _ (by norm_num))).2
    by_cases hq : n / 10 = 0
    · have hn : n % 10 = n := Nat.mod_eq_of_lt (by omega)
      rw [hn] at hd
      simp only [Nat.toDigitsCore, hq, if_true, List.foldl_cons, hn, Nat.mul_zero,
        Nat.zero_add, hd]
    · simp only [Nat.toDigitsCore, hq, if_false]
      rw [ih (n / 10) _ (by omega)]
      simp only [List.foldl_cons, hd]
      congr 1
      omega

theorem toDigitsCore_chars (fuel n : Nat) (ds : Str) (c : Char)
    (hc : c ∈ Nat.toDigitsCore 10 fuel n ds) : c ∈ ds ∨ IStream.isDigit c = true := by
  induction fuel generalizing n ds with
  | zero => exact Or.inl hc
  | succ f ih =>
    have hd := (digitChar_spec (n % 10) (Nat.mod_lt _ (by norm_num))).1
    by_cases hq : n / 10 = 0
    · simp only [Nat.toDigitsCore, hq, if_true, List.mem_cons] at hc
      rcases hc with h1 | h1
      · exact Or.inr (by rw [h1]; exact hd)
      · exact Or.inl h1
    · simp only [Nat.toDigitsCore, hq, if_false] at hc
      rcases ih _ _ hc with h1 | h1
      · rcases List.mem_cons.mp h1 with h2 | h2
        · exact Or.inr (by rw [h2]; exact hd)
        · exact Or.inl h2
      · exact Or.inr h1

theorem natToString_value (n : Nat) : IStream.digitsValue (natToString n) = n := by
  unfold IStream.digitsValue natToString Nat.toDigits
  rw [toDigitsCore_value (n + 1) n [] (Nat.lt_succ_self n)]
  rfl

theorem natToString_injective (a b : Nat) (h : natToString a = natToString b) : a = b := by
  rw [← natToString_value a, ← natToString_value b, h]

theorem natToString_digits (n : Nat) (c : Char) (hc : c ∈ natToString n) :
    IStream.isDigit c = true := by
  rcases toDigitsCore_chars (n + 1) n [] c hc with h | h
  · exact absurd h (List.not_mem_nil _)
  · exact h

theorem intToString_chars (i : Int) (c : Char) (hc : c ∈ intToString i) :
    c = '-' ∨ IStream.isDigit c = true := by
  unfold intToString at hc
  split_ifs at hc
  · rcases List.mem_cons.mp hc with h | h
    · exact Or.inl h
    · exact Or.inr (natToString_digits _ _ h)
  · exact Or.inr (natToString_digits _ _ hc)

theorem intToString_injective (i j : Int) (h : intToString i = intToString j) : i = j := by
  unfold intToString at h
  have hminus : ∀ n, ¬ ('-' ∈ natToString n) := by
    intro n hm
    have := natToString_digits n '-' hm
    exact absurd this (by decide)
  split_ifs at h with hi hj hj
  · have := natToString_injective _ _ (List.cons.inj h).2
    omega
  · exact absurd (h ▸ List.mem_cons_self _ _ : '-' ∈ natToString j.toNat) (hminus _)
  · exact absurd (h ▸ List.mem_cons_self _ _ : '-' ∈ natToString i.toNat) (hminus _)
  · have := natToString_injective _ _ h
    omega

theorem toString_eq (m : Movie) :
    Movie.toString m
      = "\x7b\"title\": \"".toList ++ (m.title ++ DQUOTE :: (", \"year\": ".toList
        ++ (intToString m.year ++ COMMA :: (" \"director\": \"".toList
        ++ (m.director ++ DQUOTE :: (", \"genre\": \"".toList
        ++ (m.genre ++ DQUOTE :: (", \"cast\": [".toList
        ++ (Movie.castToString m.cast ++ RBRACKET :: (", \"plotSummary\": \"".toList
        ++ (m.plotSummary ++ "\"\x7d".toList))))))))))) := by
  simp [Movie.toString, DQUOTE, COMMA, RBRACKET]

/-- Two texts cut at the first delimiter are equal part by part. -/
theorem split_at_delim (d : Char) (a b x y : Str) (ha : d ∉ a) (hb : d ∉ b)
    (h : a ++ d :: x = b ++ d :: y) : a = b ∧ x = y := by
  induction a generalizing b with
  | nil =>
    cases b with
    | nil => exact ⟨rfl, (List.cons.inj h).2⟩
    | cons c cs =>
      have hc : d = c := (List.cons.inj h).1
      exact absurd (hc ▸ List.mem_cons_self _ _ : d ∈ c :: cs) hb
  | cons c cs ih =>
    cases b with
    | nil =>
      have hc : c = d := (List.cons.inj h).1
      exact absurd (hc ▸ List.mem_cons_self _ _ : d ∈ c :: cs) ha
    | cons e es =>
      have h1 := List.cons.inj h
      have := ih es (fun hm => ha (List.mem_cons_of_mem _ hm))
        (fun hm => hb (List.mem_cons_of_mem _ hm)) h1.2
      exact ⟨by rw [h1.1, this.1], this.2⟩

theorem castToString_cons (a : Str) (t : List Str) :
    Movie.castToString (a :: t)
      = DQUOTE :: (a ++ DQUOTE :: (match t with
          | [] => []
          | b :: rest => ',' :: ' ' :: Movie.castToString (b :: rest))) := by
  cases t with
  | nil => simp [Movie.castToString, DQUOTE]
  | cons b rest => simp [Movie.castToString, DQUOTE]

theorem castToString_injective (c1 c2 : List Str) (x y : Str)
    (h1 : ∀ a ∈ c1, DQUOTE ∉ a) (h2 : ∀ a ∈ c2, DQUOTE ∉ a)
    (h : Movie.castToString c1 ++ RBRACKET :: x = Movie.castToString c2 ++ RBRACKET :: y) :
    c1 = c2 ∧ x = y := by
  induction c1 generalizing c2 with
  | nil =>
    cases c2 with
    | nil => exact ⟨rfl, (List.cons.inj h).2⟩
    | cons b t2 =>
      rw [castToString_cons] at h
      exact absurd (List.cons.inj h).1 (by decide)
  | cons a t1 ih =>
    cases c2 with
    | nil =>
      rw [castToString_cons] at h
      exact absurd (List.cons.inj h).1 (by decide)
    | cons b t2 =>
      rw [castToString_cons, castToString_cons] at h
      simp only [List.cons_append, List.append_assoc] at h
      have h3 := split_at_delim DQUOTE a b _ _ (h1 a (List.mem_cons_self _ _))
        (h2 b (List.mem_cons_self _ _)) (List.cons.inj h).2
      have ht1 : ∀ a ∈ t1, DQUOTE ∉ a := fun a ha => h1 a (List.mem_cons_of_mem _ ha)
      have ht2 : ∀ a ∈ t2, DQUOTE ∉ a := fun a ha => h2 a (List.mem_cons_of_mem _ ha)
      have h4 := h3.2
      cases t1 with
      | nil =>
        cases t2 with
        | nil => exact ⟨by rw [h3.1], (List.cons.inj h4).2⟩
        | cons b2 r2 => exact absurd (List.cons.inj h4).1 (by decide)
      | cons a2 r1 =>
        cases t2 with
        | nil => exact absurd (List.cons.inj h4).1 (by decide)
        | cons b2 r2 =>
          have h5 : Movie.castToString (a2 :: r1) ++ RBRACKET :: x
              = Movie.castToString (b2 :: r2) ++ RBRACKET :: y :=
            (List.cons.inj (List.cons.inj h4).2).2
          have h6 := ih (b2 :: r2) ht1 ht2 h5
          exact ⟨by rw [h3.1, h6.1], h6.2⟩

theorem intToString_no_comma (i : Int) : COMMA ∉ intToString i := by
  intro hm
  rcases intToString_chars i COMMA hm with h | h
  · exact absurd h (by decide)
  · exact absurd h (by decide)

theorem newline_mem_castToString (cast : List Str) :
    '\n' ∈ Movie.castToString cast ↔ ∃ a ∈ cast, '\n' ∈ a := by
  induction cast with
  | nil => simp [Movie.castToString]
  | cons a t ih =>
    rw [castToString_cons]
    cases t with
    | nil => simp [DQUOTE]
    | cons b rest =>
      simp only [List.mem_cons, List.mem_append, ih]
      simp [DQUOTE]

theorem newline_not_mem_intToString (i : Int) : '\n' ∉ intToString i := by
  intro hm
  rcases intToString_chars i '\n' hm with h | h
  · exact absurd h (by decide)
  · exact absurd h (by decide)

theorem ignore_prefix (pre rest : Str) :
    (IStream.ofString (pre ++ rest)).ignore pre.length = IStream.ofString rest := by
  simp [IStream.ignore, IStream.ofString, IStream.good]

theorem yearPosition_title (pre rest : Str) (h : pre.length = 9) :
    (Movie.yearPosition (pre ++ ' ' :: DQUOTE :: rest)).2 = [' '] := by
  unfold Movie.yearPosition
  simp only []
  rw [← h, ignore_prefix]
  simp [IStream.getline, IStream.ofString, IStream.good, IStream.after, IStream.upTo, DQUOTE]

/-- Whatever the movie, the title `fromString` reads back from its encoding is one blank. -/
theorem yearPosition_toString (r : Movie) : (Movie.yearPosition (Movie.toString r)).2 = [' '] := by
  have hr : Movie.toString r
      = "\x7b\"title\":".toList ++ ' ' :: DQUOTE :: (Movie.toString r).drop 11 := by
    rw [toString_eq]
    rfl
  rw [hr]
  exact yearPosition_title _ _ rfl

theorem fromString_maps_empty (year0 : Int) (str : Str) (m : Movie)
    (h : Movie.fromString year0 str = Result.ok m) :
    m.userRatings = [] ∧ m.userReviews = [] := by
  rw [fromString_eq] at h
  split at h
  · simp only [Result.ok.injEq] at h
    subst h
    exact ⟨rfl, rfl⟩
  · exact absurd h (by simp)
  · exact absurd h (by simp)

theorem quoteFree_dune : QuoteFree dune := by
  unfold QuoteFree
  decide

/-! ## The claims about the text `toString` writes -/

/-- C13, counterexample: the movie with the single cast member `a", "b` and the movie with
the two cast members `a` and `b` have the same encoding. -/
theorem toString_not_injective :
    Movie.toString oneMember = Movie.toString twoMembers ∧
      oneMember.cast ≠ twoMembers.cast := by
  constructor
  · rfl
  · decide

/-- C13, amended: two movies without a double quote in title, director, genre and cast
members that have the same encoding agree on title, year, director, genre, cast and plot
summary. -/
theorem toString_injective_without_quotes (r1 r2 : Movie) (h1 : QuoteFree r1) (h2 : QuoteFree r2)
    (h : Movie.toString r1 = Movie.toString r2) : SameCarried r1 r2 := by
  rw [toString_eq, toString_eq] at h
  have s1 := split_at_delim DQUOTE _ _ _ _ h1.1 h2.1 (List.append_cancel_left h)
  have s2 := split_at_delim COMMA _ _ _ _ (intToString_no_comma _) (intToString_no_comma _)
    (List.append_cancel_left s1.2)
  have s3 := split_at_delim DQUOTE _ _ _ _ h1.2.1 h2.2.1 (List.append_cancel_left s2.2)
  have s4 := split_at_delim DQUOTE _ _ _ _ h1.2.2.1 h2.2.2.1 (List.append_cancel_left s3.2)
  have s5 := castToString_injective _ _ _ _ h1.2.2.2 h2.2.2.2 (List.append_cancel_left s4.2)
  have s6 := List.append_cancel_right (List.append_cancel_left s5.2)
  exact ⟨s1.1, intToString_injective _ _ s2.1, s3.1, s4.1, s5.1, s6⟩

/-- Witness of C13, amended, on the movie `dune`. -/
theorem toString_injective_without_quotes_witness :
    QuoteFree dune ∧ Movie.toString dune = Movie.toString (withoutMaps dune) ∧
      SameCarried dune (withoutMaps dune) :=
  ⟨quoteFree_dune, rfl,
   toString_injective_without_quotes dune (withoutMaps dune) quoteFree_dune quoteFree_dune rfl⟩

/-- C14, counterexample: the encoding of a movie whose plot summary has two lines contains a
newline character. -/
theorem toString_keeps_newline : '\n' ∈ Movie.toString twoLines := by
  decide

/-- C14, amended: the encoding contains a newline character exactly when the title, the
director, the genre, a cast member or the plot summary does. -/
theorem toString_newline_iff (r : Movie) :
    '\n' ∈ Movie.toString r ↔
      '\n' ∈ r.title ∨ '\n' ∈ r.director ∨ '\n' ∈ r.genre ∨ (∃ a ∈ r.cast, '\n' ∈ a) ∨
        '\n' ∈ r.plotSummary := by
  rw [toString_eq]
  simp only [List.mem_append, List.mem_cons, newline_mem_castToString]
  simp [DQUOTE, COMMA, RBRACKET, newline_not_mem_intToString]

theorem fromString_title (year0 : Int) (str : Str) (m : Movie)
    (h : Movie.fromString year0 str = Result.ok m) : m.title = (Movie.yearPosition str).2 := by
  rw [fromString_eq] at h
  split at h
  · simp only [Result.ok.injEq] at h
    subst h
    rfl
  · exact absurd h (by simp)
  · exact absurd h (by simp)

set_option maxRecDepth 8000 in
/-- C1, failing input: the movie `alien` has no delimiter character in any field, and its
encoding is read back as the movie with title one blank, year 0 and nothing else, whatever
the local `year` held before; and for every movie, the title read back from its encoding is
one blank. -/
theorem roundTrip_fails_on_alien :
    (∀ year0, Movie.fromString year0 (Movie.toString alien) = Result.ok blank) ∧
      ¬ SameCarried blank alien ∧
      ∀ year0 r m, Movie.fromString year0 (Movie.toString r) = Result.ok m →
        m.title = " ".toList := by
  refine ⟨fun _ => rfl, ?_, ?_⟩
  · intro hs
    have ht : blank.title ≠ alien.title := by decide
    exact ht hs.1
  · intro year0 r m h
    rw [fromString_title year0 _ m h, yearPosition_toString]
    rfl

set_option maxRecDepth 8000 in
/-- C16, failing input: the movie `dune` has no delimiter character in any field, and its
encoding is read back as the movie with title one blank, year 0 and nothing else. -/
theorem fromString_toString_dune :
    Movie.fromString 7 (Movie.toString dune) = Result.ok blank ∧ ¬ SameCarried blank dune := by
  constructor
  · rfl
  · intro hs
    have ht : blank.title ≠ dune.title := by decide
    exact ht hs.1

/-- C18: reading back the encoding of a movie either throws or returns a movie with an empty
rating map and an empty review map, and the encoding of a movie is the encoding of the
movie with both maps emptied. -/
theorem maps_do_not_survive (year0 : Int) (r : Movie) :
    ((∃ m, Movie.fromString year0 (Movie.toString r) = Result.ok m ∧
          m.userRatings = [] ∧ m.userReviews = []) ∨
        Movie.fromString year0 (Movie.toString r) = Result.out_of_range) ∧
      Movie.toString r = Movie.toString (withoutMaps r) := by
  refine ⟨?_, rfl⟩
  cases h : Movie.fromString year0 (Movie.toString r) with
  | ok m => exact Or.inl ⟨m, rfl, fromString_maps_empty year0 _ m h⟩
  | out_of_range => exact Or.inr rfl
  | fuel => exact absurd h (fromString_fuel_free year0 _)

end Codec

namespace MovieDatabase

open Codec

/-! ## Recommendations -/

theorem counts_congr (freq : StdMap Int) (c1 c2 : Str → Nat) (h : Counts freq c1)
    (heq : ∀ t, c1 t = c2 t) : Counts freq c2 := by
  refine ⟨h.1, fun t => ?_⟩
  rw [h.2 t, heq t]

theorem counts_bump (freq : StdMap Int) (cnt : Str → Nat) (t0 : Str) (h : Counts freq cnt) :
    Counts (freq.assign t0 (freq.index t0 0 + 1)) (fun t => cnt t + if t = t0 then 1 else 0) := by
  refine ⟨sortedKeys_assign _ _ _ h.1, fun t => ?_⟩
  by_cases ht : t = t0
  · subst ht
    rw [StdMap.find_assign_same]
    have hidx : StdMap.index freq t 0 = (cnt t : Int) := by
      unfold StdMap.index
      rw [h.2 t]
      by_cases hc : cnt t = 0
      · simp [hc]
      · simp [hc]
    simp [hidx]
  · rw [StdMap.find_assign_other _ _ _ _ ht, h.2 t]
    simp [ht]

/-- The test of `recommendMovies` holds exactly for a non-empty `ratings[username]`. -/
theorem hasRated_iff (u : Str) (m : Movie) : hasRated u m = true ↔ ratingsOf u m ≠ [] := by
  unfold hasRated ratingsOf StdMap.index
  cases hf : StdMap.find m.userRatings u with
  | none => simp
  | some l =>
    cases l with
    | nil => simp
    | cons x xs => simp

theorem ratedIn_cons (u : Str) (m : Movie) (rest : List Movie) (t : Str) :
    ratedIn u (m :: rest) t
      = (if hasRated u m = true ∧ m.title = t then 1 else 0) + ratedIn u rest t := by
  unfold ratedIn
  by_cases h : hasRated u m = true ∧ m.title = t
  · have hp : (decide (ratingsOf u m ≠ []) && decide (m.title = t)) = true := by
      simp only [Bool.and_eq_true, decide_eq_true_eq]
      exact ⟨(hasRated_iff u m).mp h.1, h.2⟩
    rw [List.filter_cons, if_pos hp, if_pos h, List.length_cons]
    omega
  · have hp : ¬ (decide (ratingsOf u m ≠ []) && decide (m.title = t)) = true := by
      simp only [Bool.and_eq_true, decide_eq_true_eq]
      exact fun hh => h ⟨(hasRated_iff u m).mpr hh.1, hh.2⟩
    rw [List.filter_cons, if_neg hp, if_neg h]
    omega

theorem counts_countLoop (u : Str) (lib : List Movie) (freq : StdMap Int) (cnt : Str → Nat)
    (h : Counts freq cnt) : Counts (countLoop u lib freq) (fun t => cnt t + ratedIn u lib t) := by
  induction lib generalizing freq cnt with
  | nil => exact counts_congr _ _ _ h (fun t => by simp [ratedIn])
  | cons m rest ih =>
    by_cases hr : hasRated u m = true
    · have := ih _ _ (counts_bump freq cnt m.title h)
      simp only [countLoop, hr, if_true]
      refine counts_congr _ _ _ this (fun t => ?_)
      rw [ratedIn_cons]
      by_cases ht : t = m.title
      · subst ht
        simp [hr]
        omega
      · have ht' : ¬ m.title = t := fun h => ht h.symm
        simp [ht, ht']
    · have := ih _ _ h
      simp only [countLoop, hr]
      refine counts_congr _ _ _ this (fun t => ?_)
      rw [ratedIn_cons]
      simp [hr]

theorem allMovies_cons (e : Str × List Movie) (rest : Catalog) :
    allMovies (e :: rest) = e.2 ++ allMovies rest := by
  simp [allMovies]

theorem ratedIn_append (u : Str) (l1 l2 : List Movie) (t : Str) :
    ratedIn u (l1 ++ l2) t = ratedIn u l1 t + ratedIn u l2 t := by
  simp [ratedIn, List.filter_append]

theorem counts_movieFrequency (u : Str) (db : Catalog) (freq : StdMap Int) (cnt : Str → Nat)
    (h : Counts freq cnt) :
    Counts (movieFrequency u db freq) (fun t => cnt t + ratedIn u (allMovies db) t) := by
  induction db generalizing freq cnt with
  | nil => exact counts_congr _ _ _ h (fun t => by simp [allMovies, ratedIn])
  | cons e rest ih =>
    have := ih _ _ (counts_countLoop u e.2 freq cnt h)
    simp only [movieFrequency]
    refine counts_congr _ _ _ this (fun t => ?_)
    rw [allMovies_cons, ratedIn_append]
    omega

theorem find_of_mem_sorted {β : Type} (m : StdMap β) (k : Str) (v : β) (hs : SortedKeys m)
    (h : (k, v) ∈ m) : StdMap.find m k = some v := by
  induction m with
  | nil => exact absurd h (List.not_mem_nil _)
  | cons p rest ih =>
    obtain ⟨k', v'⟩ := p
    have h' := (sortedKeys_cons rest k' v').mp hs
    rcases List.mem_cons.mp h with h1 | h1
    · have hk : k = k' := congrArg Prod.fst h1
      have hv : v = v' := congrArg Prod.snd h1
      simp [StdMap.find, hk, hv]
    · have hlt : strLess k' k = true := h'.1 k (List.mem_map.mpr ⟨(k, v), h1, rfl⟩)
      have hk : k ≠ k' := by
        intro heq
        rw [heq, strLess_irrefl] at hlt
        exact absurd hlt (by simp)
      simp only [StdMap.find, hk, if_false]
      exact ih h'.2 h1

theorem strictWeakOn_count : StrictWeakOn (fun a b : Str × Int => decide (b.2 < a.2)) := by
  refine ⟨fun a => by simp, fun a b c h1 h2 => ?_, ?_⟩
  · simp only [decide_eq_true_eq] at h1 h2 ⊢
    omega
  · intro a b c h1 h2 h3 h4
    simp only [decide_eq_false_iff_not] at h1 h2 h3 h4 ⊢
    omega

theorem strictWeakOn_asymm {α : Type} {comp : α → α → Bool} (h : StrictWeakOn comp) (a b : α)
    (hab : comp a b = true) : comp b a = false := by
  cases hba : comp b a with
  | false => rfl
  | true =>
    have := h.2.1 a b a hab hba
    rw [h.1 a] at this
    exact absurd this (by simp)

theorem strictWeakOn_not_lt_trans {α : Type} {comp : α → α → Bool} (h : StrictWeakOn comp)
    (a b c : α) (hba : comp b a = false) (hcb : comp c b = false) : comp c a = false := by
  cases hca : comp c a with
  | false => rfl
  | true =>
    have hbc : comp b c = false := by
      cases hbc : comp b c with
      | false => rfl
      | true => rw [h.2.1 b c a hbc hca] at hba; exact absurd hba (by simp)
    have hab : comp a b = false := by
      cases hab : comp a b with
      | false => rfl
      | true => rw [h.2.1 c a b hca hab] at hcb; exact absurd hcb (by simp)
    have := (h.2.2 a b c hab hba hbc hcb).2
    rw [hca] at this
    exact absurd this (by simp)

theorem mergeSortBy_contract {α : Type} : SortContractOn (@mergeSortBy α) := by
  intro comp xs hc
  refine ⟨List.mergeSort_perm xs _, ?_⟩
  have hs := @List.sorted_mergeSort α (fun a b => !comp b a)
    (fun a b c hab hbc => by
      simp only [Bool.not_eq_true'] at hab hbc ⊢
      exact strictWeakOn_not_lt_trans hc a b c hab hbc)
    (fun a b => by
      cases hba : comp b a with
      | false => simp [hba]
      | true => simp [strictWeakOn_asymm hc b a hba]) xs
  exact hs.imp (fun {a b} hab => by simpa using hab)

/-- C12: with a sorting routine that meets the contract of `std::sort`, the list
`recommendMovies` builds has every title at most once; a title is in it exactly when some
movie of some library has that title and a non-empty rating list under `username`; the count
next to a title is the number of such movies in all libraries; the counts do not increase
down the list; the list is empty when no movie has a rating of `username`; and the lines
written are a heading and one line per entry of the list. -/
theorem recommendMovies_counts_and_ranks
    (stdSort : ((Str × Int) → (Str × Int) → Bool) → List (Str × Int) → List (Str × Int))
    (hsort : SortContractOn stdSort) (db : Catalog) (username : Str) :
    ((recommendMovies stdSort db username).1.map Prod.fst).Nodup ∧
      (∀ t, t ∈ (recommendMovies stdSort db username).1.map Prod.fst ↔
        ∃ m ∈ allMovies db, m.title = t ∧ ratingsOf username m ≠ []) ∧
      (∀ t c, (t, c) ∈ (recommendMovies stdSort db username).1 →
        c = (ratedIn username (allMovies db) t : Int)) ∧
      (recommendMovies stdSort db username).1.Pairwise (fun a b => b.2 ≤ a.2) ∧
      ((∀ m ∈ allMovies db, ratingsOf username m = []) →
        (recommendMovies stdSort db username).1 = []) ∧
      (recommendMovies stdSort db username).2
        = ("Recommendations for ".toList ++ username ++ ":".toList)
          :: (recommendMovies stdSort db username).1.map
              (fun rec => rec.1 ++ " (".toList ++ intToString rec.2 ++ " ratings)".toList) := by
  have hc : Counts (movieFrequency username db [])
      (fun t => 0 + ratedIn username (allMovies db) t) :=
    counts_movieFrequency username db [] (fun _ => 0)
      ⟨List.Pairwise.nil, fun t => by simp [StdMap.find]⟩
  obtain ⟨hperm, hsorted⟩ := hsort (fun a b => decide (b.2 < a.2))
    (movieFrequency username db []) strictWeakOn_count
  have hrec : (recommendMovies stdSort db username).1
      = stdSort (fun a b => decide (b.2 < a.2)) (movieFrequency username db []) := rfl
  rw [hrec]
  have hpos : ∀ t, 0 < ratedIn username (allMovies db) t ↔
      ∃ m ∈ allMovies db, m.title = t ∧ ratingsOf username m ≠ [] := by
    intro t
    unfold ratedIn
    rw [List.length_pos_iff_exists_mem]
    constructor
    · rintro ⟨m, hm⟩
      have := List.mem_filter.mp hm
      simp only [Bool.and_eq_true, decide_eq_true_eq] at this
      exact ⟨m, this.1, this.2.2, this.2.1⟩
    · rintro ⟨m, hm, ht, hr⟩
      refine ⟨m, List.mem_filter.mpr ⟨hm, ?_⟩⟩
      simp only [Bool.and_eq_true, decide_eq_true_eq]
      exact ⟨hr, ht⟩
  have hmem : ∀ t c, (t, c) ∈ movieFrequency username db [] →
      c = (ratedIn username (allMovies db) t : Int) ∧ 0 < ratedIn username (allMovies db) t := by
    intro t c htc
    have hf := find_of_mem_sorted _ t c hc.1 htc
    rw [hc.2 t] at hf
    by_cases h0 : 0 + ratedIn username (allMovies db) t = 0
    · rw [if_pos h0] at hf
      exact absurd hf (by simp)
    · rw [if_neg h0] at hf
      simp only [Nat.zero_add] at hf h0
      exact ⟨(Option.some.inj hf).symm, Nat.pos_of_ne_zero h0⟩
  refine ⟨?_, ?_, ?_, ?_, ?_, rfl⟩
  · exact (hperm.map Prod.fst).nodup_iff.mpr (nodup_keys_of_sorted _ hc.1)
  · intro t
    rw [← hpos t, (hperm.map Prod.fst).mem_iff]
    constructor
    · intro ht
      obtain ⟨e, he, het⟩ := List.mem_map.mp ht
      obtain ⟨t', c⟩ := e
      simp only at het
      subst het
      exact (hmem _ c he).2
    · intro hp
      have hf := hc.2 t
      have h0 : ¬ (0 + ratedIn username (allMovies db) t = 0) := by omega
      rw [if_neg h0] at hf
      exact mem_keys_of_find _ t _ hf
  · intro t c htc
    exact (hmem t c (hperm.mem_iff.mp htc)).1
  · refine hsorted.imp ?_
    intro a b hab
    simp only [decide_eq_false_iff_not, not_lt] at hab
    exact hab
  · intro hnone
    have hnil : movieFrequency username db [] = [] := by
      cases hm : movieFrequency username db [] with
      | nil => rfl
      | cons e rest =>
        obtain ⟨t, c⟩ := e
        have := (hmem t c (by rw [hm]; exact List.mem_cons_self _ _)).2
        obtain ⟨m, hm1, _, hm3⟩ := (hpos t).mp this
        exact absurd (hnone m hm1) hm3
    have hperm2 := hperm
    rw [hnil] at hperm2
    rw [hnil]
    exact List.Perm.eq_nil hperm2

/-- Witness of C12: merge sort meets the contract; in `ratedDb`, where `alice` has rated her
`Dune` once and nobody has rated the `Alien` of `bob`, the recommendations of `alice` contain
`Dune`, with no count other than 1, and do not contain `Alien`. -/
theorem recommendMovies_counts_and_ranks_witness :
    SortContractOn (@mergeSortBy (Str × Int)) ∧
      "Dune".toList ∈ (recommendMovies mergeSortBy ratedDb alice).1.map Prod.fst ∧
      (∀ c, ("Dune".toList, c) ∈ (recommendMovies mergeSortBy ratedDb alice).1 → c = 1) ∧
      "Alien".toList ∉ (recommendMovies mergeSortBy ratedDb alice).1.map Prod.fst :=
  ⟨mergeSortBy_contract,
   ((recommendMovies_counts_and_ranks mergeSortBy mergeSortBy_contract ratedDb alice).2.1
      "Dune".toList).mpr
     ⟨pushRating (sample "Dune" 1984) alice 5, by decide, by decide, by decide⟩,
   fun c hc =>
     (recommendMovies_counts_and_ranks mergeSortBy mergeSortBy_contract ratedDb alice).2.2.1
       "Dune".toList c hc,
   fun h => by
     obtain ⟨m, hm, ht, hr⟩ :=
       ((recommendMovies_counts_and_ranks mergeSortBy mergeSortBy_contract ratedDb alice).2.1
         "Alien".toList).mp h
     have hall : ∀ x ∈ allMovies ratedDb, x.title = "Alien".toList → ratingsOf alice x = [] := by
       decide
     exact hr (hall m hm ht)⟩

/-! ## Whose ratings a library holds -/

theorem keysOnly_of_empty (u : Str) (m : Movie) (h1 : m.userRatings = [])
    (h2 : m.userReviews = []) : KeysOnly u m := by
  unfold KeysOnly
  rw [h1, h2]
  exact ⟨fun k hk => absurd hk (List.not_mem_nil _), fun k hk => absurd hk (List.not_mem_nil _)⟩

theorem keysOnly_library (db : Catalog) (u : Str) (h : OwnKeys db) :
    ∀ m ∈ library db u, KeysOnly u m := by
  intro m hm
  unfold library StdMap.index at hm
  cases hf : StdMap.find db u with
  | none =>
    rw [hf] at hm
    exact absurd hm (List.not_mem_nil _)
  | some l =>
    rw [hf] at hm
    exact h (u, l) (mem_of_find db u l hf) m hm

theorem ownKeys_assign (db : Catalog) (u : Str) (lib : List Movie) (h : OwnKeys db)
    (hl : ∀ m ∈ lib, KeysOnly u m) : OwnKeys (db.assign u lib) := by
  intro e he m hm
  rcases mem_assign db u lib e he with h1 | h1
  · subst h1
    exact hl m hm
  · exact h e h1 m hm

theorem mem_editLoop (title : Str) (new x : Movie) (lib : List Movie)
    (hx : x ∈ editLoop title new lib) : x = new ∨ x ∈ lib := by
  induction lib with
  | nil => exact absurd hx (List.not_mem_nil _)
  | cons y rest ih =>
    by_cases hy : y.title = title
    · simp only [editLoop, hy, if_true, List.mem_cons] at hx ⊢
      rcases hx with h | h
      · exact Or.inl h
      · exact Or.inr (Or.inr h)
    · simp only [editLoop, hy, if_false, List.mem_cons] at hx ⊢
      rcases hx with h | h
      · exact Or.inr (Or.inl h)
      · rcases ih h with h1 | h1
        · exact Or.inl h1
        · exact Or.inr (Or.inr h1)

theorem mem_rateLoop (u title : Str) (r : Int) (x : Movie) (lib : List Movie)
    (hx : x ∈ (rateLoop u title r lib).1) : x ∈ lib ∨ ∃ m ∈ lib, x = pushRating m u r := by
  induction lib with
  | nil => exact absurd hx (List.not_mem_nil _)
  | cons y rest ih =>
    by_cases hy : y.title = title
    · simp only [rateLoop, hy, if_true, List.mem_cons] at hx ⊢
      rcases hx with h | h
      · exact Or.inr ⟨y, Or.inl rfl, h⟩
      · exact Or.inl (Or.inr h)
    · simp only [rateLoop, hy, if_false, List.mem_cons] at hx ⊢
      rcases hx with h | h
      · exact Or.inl (Or.inl h)
      · rcases ih h with h1 | ⟨m, hm, h1⟩
        · exact Or.inl (Or.inr h1)
        · exact Or.inr ⟨m, Or.inr hm, h1⟩

theorem mem_reviewLoop (u title t : Str) (x : Movie) (lib : List Movie)
    (hx : x ∈ (reviewLoop u title t lib).1) : x ∈ lib ∨ ∃ m ∈ lib, x = setReview m u t := by
  induction lib with
  | nil => exact absurd hx (List.not_mem_nil _)
  | cons y rest ih =>
    by_cases hy : y.title = title
    · simp only [reviewLoop, hy, if_true, List.mem_cons] at hx ⊢
      rcases hx with h | h
      · exact Or.inr ⟨y, Or.inl rfl, h⟩
      · exact Or.inl (Or.inr h)
    · simp only [reviewLoop, hy, if_false, List.mem_cons] at hx ⊢
      rcases hx with h | h
      · exact Or.inl (Or.inl h)
      · rcases ih h with h1 | ⟨m, hm, h1⟩
        · exact Or.inl (Or.inr h1)
        · exact Or.inr ⟨m, Or.inr hm, h1⟩

theorem keysOnly_pushRating (u : Str) (m : Movie) (r : Int) (h : KeysOnly u m) :
    KeysOnly u (pushRating m u r) := by
  refine ⟨fun k hk => ?_, h.2⟩
  rcases (mem_keys_assign _ _ _ _).mp hk with h1 | h1
  · exact h1
  · exact h.1 k h1

theorem keysOnly_setReview (u : Str) (m : Movie) (t : Str) (h : KeysOnly u m) :
    KeysOnly u (setReview m u t) := by
  refine ⟨h.1, fun k hk => ?_⟩
  rcases (mem_keys_assign _ _ _ _).mp hk with h1 | h1
  · exact h1
  · exact h.2 k h1

theorem ownKeys_importMovies (lines : List FileLine) (u : Str) (db db2 : Catalog)
    (h : OwnKeys db) (hi : importMovies lines u db = Result.ok db2) : OwnKeys db2 := by
  induction lines generalizing db with
  | nil =>
    have h0 : importMovies [] u db = Result.ok db := rfl
    rw [h0] at hi
    rw [← Result.ok.inj hi]
    exact h
  | cons line rest ih =>
    rw [importMovies_cons] at hi
    by_cases he : line.text.isEmpty = true
    · rw [if_pos he] at hi
      exact ih db h hi
    · rw [if_neg he] at hi
      cases hfs : Movie.fromString line.year0 line.text with
      | ok movie =>
        rw [hfs] at hi
        refine ih _ (ownKeys_assign db u _ h ?_) hi
        intro m hm
        rcases List.mem_append.mp hm with h1 | h1
        · exact keysOnly_library db u h m h1
        · rw [List.mem_singleton.mp h1]
          have := fromString_maps_empty line.year0 line.text movie hfs
          exact keysOnly_of_empty u movie this.1 this.2
      | out_of_range => rw [hfs] at hi; exact absurd hi (by simp)
      | fuel => rw [hfs] at hi; exact absurd hi (by simp)

theorem sortMovies_eq_assign (stdSort : (Movie → Movie → Bool) → List Movie → List Movie)
    (hsort : StdSortContract stdSort) (db : Catalog) (u criteria : Str) :
    ∃ lib, sortMovies stdSort db u criteria = db.assign u lib ∧ lib.Perm (library db u) := by
  unfold sortMovies
  simp only []
  split_ifs
  · exact ⟨_, rfl, (hsort _ _ (strictWeak_of_key Movie.title)).1⟩
  · exact ⟨_, rfl, (hsort _ _ strictWeak_year).1⟩
  · exact ⟨_, rfl, (hsort _ _ (strictWeak_of_key Movie.director)).1⟩
  · exact ⟨_, rfl, (hsort _ _ (strictWeak_of_key Movie.genre)).1⟩
  · exact ⟨_, rfl, List.Perm.refl _⟩

theorem ownKeys_of_reachable (stdSort : (Movie → Movie → Bool) → List Movie → List Movie)
    (hsort : StdSortContract stdSort) (db : Catalog) (h : Reachable stdSort db) :
    OwnKeys db := by
  induction h with
  | empty => exact fun e he => absurd he (List.not_mem_nil _)
  | loaded lines db db2 _ hl ih =>
    rw [loadFromFile_eq_importMovies] at hl
    exact ownKeys_importMovies lines _ db db2 ih hl
  | imported lines u db db2 _ hi ih =>
    exact ownKeys_importMovies lines u db db2 ih hi
  | added db u m _ h1 h2 ih =>
    refine ownKeys_assign db u _ ih ?_
    intro x hx
    rcases List.mem_append.mp hx with h3 | h3
    · exact keysOnly_library db u ih x h3
    · rw [List.mem_singleton.mp h3]
      exact keysOnly_of_empty u m h1 h2
  | edited db u title m _ h1 h2 ih =>
    refine ownKeys_assign db u _ ih ?_
    intro x hx
    rcases mem_editLoop title m x _ hx with h3 | h3
    · rw [h3]
      exact keysOnly_of_empty u m h1 h2
    · exact keysOnly_library db u ih x h3
  | deleted db u title _ ih =>
    refine ownKeys_assign db u _ ih ?_
    intro x hx
    rw [eraseRemoveIf_eq_filter] at hx
    exact keysOnly_library db u ih x (List.mem_filter.mp hx).1
  | sorted db u criteria _ ih =>
    obtain ⟨lib, heq, hperm⟩ := sortMovies_eq_assign stdSort hsort db u criteria
    rw [heq]
    refine ownKeys_assign db u _ ih ?_
    intro x hx
    exact keysOnly_library db u ih x (hperm.mem_iff.mp hx)
  | rated db u title rating _ ih =>
    refine ownKeys_assign db u _ ih ?_
    intro x hx
    rcases mem_rateLoop u title rating x _ hx with h3 | ⟨m, hm, h3⟩
    · exact keysOnly_library db u ih x h3
    · rw [h3]
      exact keysOnly_pushRating u m rating (keysOnly_library db u ih m hm)
  | reviewed db u title review _ ih =>
    refine ownKeys_assign db u _ ih ?_
    intro x hx
    rcases mem_reviewLoop u title review x _ hx with h3 | ⟨m, hm, h3⟩
    · exact keysOnly_library db u ih x h3
    · rw [h3]
      exact keysOnly_setReview u m review (keysOnly_library db u ih m hm)

theorem hasRated_mem_keys (u : Str) (m : Movie) (h : hasRated u m = true) :
    u ∈ StdMap.keys m.userRatings := by
  unfold hasRated at h
  cases hf : StdMap.find m.userRatings u with
  | none => rw [hf] at h; exact absurd h (by simp)
  | some l => exact mem_keys_of_find _ u l hf

theorem countLoop_noop (u : Str) (lib : List Movie) (freq : StdMap Int)
    (h : ∀ m ∈ lib, hasRated u m = false) : countLoop u lib freq = freq := by
  induction lib generalizing freq with
  | nil => rfl
  | cons m rest ih =>
    have hm := h m (List.mem_cons_self _ _)
    simp only [countLoop, hm]
    exact ih freq (fun x hx => h x (List.mem_cons_of_mem _ hx))

theorem movieFrequency_own (u : Str) (db : Catalog) (freq : StdMap Int) (h : OwnKeys db) :
    movieFrequency u db freq
      = movieFrequency u (db.filter (fun e => decide (e.1 = u))) freq := by
  induction db generalizing freq with
  | nil => rfl
  | cons e rest ih =>
    have hrest : OwnKeys rest := fun x hx => h x (List.mem_cons_of_mem _ hx)
    by_cases he : e.1 = u
    · rw [List.filter_cons_of_pos (by simpa using he)]
      simp only [movieFrequency]
      exact ih _ hrest
    · rw [List.filter_cons_of_neg (by simpa using he)]
      simp only [movieFrequency]
      have hno : ∀ m ∈ e.2, hasRated u m = false := by
        intro m hm
        cases hr : hasRated u m with
        | false => rfl
        | true =>
          have hk := (h e (List.mem_cons_self _ _) m hm).1 u (hasRated_mem_keys u m hr)
          exact absurd hk.symm he
      rw [countLoop_noop u e.2 freq hno]
      exact ih _ hrest

/-- C20: in every catalog the program can reach, every movie of every entry has no rating
key and no review key other than the key of the entry, so every movie in the library of a
user `u` has no such key other than `u`; and `recommendMovies` for `u` gives on the whole
catalog what it gives on the entries of `u` alone. -/
theorem reachable_keys_are_own
    (stdSort : (Movie → Movie → Bool) → List Movie → List Movie)
    (hsort : StdSortContract stdSort) (db : Catalog) (h : Reachable stdSort db) :
    (∀ e ∈ db, ∀ m ∈ e.2, KeysOnly e.1 m) ∧
      (∀ u, ∀ m ∈ library db u, KeysOnly u m) ∧
      (∀ pairSort u,
        recommendMovies pairSort db u
          = recommendMovies pairSort (db.filter (fun e => decide (e.1 = u))) u) := by
  have hown := ownKeys_of_reachable stdSort hsort db h
  refine ⟨hown, fun u => keysOnly_library db u hown, ?_⟩
  intro pairSort u
  unfold recommendMovies
  rw [movieFrequency_own u db [] hown]

/-- Witness of C20: `ratedDb` is reached by two `addMovie` and one `rateMovie`. -/
theorem reachable_keys_are_own_witness :
    StdSortContract stableSort ∧ Reachable stableSort ratedDb ∧
      ∀ u, ∀ m ∈ library ratedDb u, KeysOnly u m :=
  ⟨stableSort_contract,
   Reachable.rated _ alice "Dune".toList 5
     (Reachable.added _ bob (sample "Alien" 1979)
       (Reachable.added [] alice (sample "Dune" 1984) Reachable.empty rfl rfl) rfl rfl),
   (reachable_keys_are_own stableSort stableSort_contract ratedDb
     (Reachable.rated _ alice "Dune".toList 5
       (Reachable.added _ bob (sample "Alien" 1979)
         (Reachable.added [] alice (sample "Dune" 1984) Reachable.empty rfl rfl) rfl rfl))).2.1⟩

end MovieDatabase

end MovieDB
